import Mathlib

/-!
Verification development for the aws_hackathon repository.

The development has two parts.

Part one (namespace UI) is a shallow embedding of the two pure string
functions of src/JIA_ui/src/App.tsx: linkifyText and stripCliNoise.
Strings are modelled as List Char; JavaScript regular-expression matching
for the URL pattern of linkifyText is embedded as an explicit left-to-right
scanner with the same alternative order, greediness and word-boundary
semantics.

Part two (namespace Pipeline) concerns the classification, extraction and
idempotent-sync pipeline described in spec.md sections 3 to 7.  The Python
sources that implement it (job_agent.py, interview_parser.py,
calendar_push.py, storage.py per the README architecture) are not part of
the checked-in src tree, so each definition is modelled from the spec, as
recorded in its doc comment.
-/

namespace UI

/-- Whitespace class used by JavaScript String.prototype.trim and the regex
class backslash-s (the common members; App.tsx only ever meets ASCII
whitespace plus NBSP/BOM). -/
def isSpaceJS (c : Char) : Bool :=
  decide (c = ' ') || decide (c = '\t') || decide (c = '\n') || decide (c = '\r') ||
  decide (c = '\x0b') || decide (c = '\x0c') || decide (c = ' ') || decide (c = '﻿')

/-- Word character for the JavaScript regex word boundary: [A-Za-z0-9_]. -/
def isWordChar (c : Char) : Bool :=
  (decide ('a' ≤ c) && decide (c ≤ 'z')) || (decide ('A' ≤ c) && decide (c ≤ 'Z')) ||
  (decide ('0' ≤ c) && decide (c ≤ '9')) || decide (c = '_')

/-- Does the text start with the given pattern (String.prototype.startsWith)? -/
def startsWithL : List Char → List Char → Bool
  | [], _ => true
  | _ :: _, [] => false
  | p :: ps, c :: cs => decide (p = c) && startsWithL ps cs

/-- Does the text contain the pattern as a contiguous substring
(String.prototype.includes)? -/
def containsSub : List Char → List Char → Bool
  | pat, [] => pat.isEmpty
  | pat, c :: cs => startsWithL pat (c :: cs) || containsSub pat cs

/-- Index of the first occurrence of the pattern (String.prototype.indexOf;
none for -1). -/
def idxOfSub : List Char → List Char → Option Nat
  | pat, s =>
    if startsWithL pat s then some 0
    else
      match s with
      | [] => none
      | _ :: cs => (idxOfSub pat cs).map (· + 1)

/-- Split on the newline character (String.prototype.split with "\n"). -/
def splitNl : List Char → List (List Char)
  | [] => [[]]
  | c :: cs =>
    if c = '\n' then [] :: splitNl cs
    else
      match splitNl cs with
      | [] => [[c]]
      | l :: ls => (c :: l) :: ls

/-- Join lines with the newline character (Array.prototype.join with "\n"). -/
def joinNl : List (List Char) → List Char
  | [] => []
  | [l] => l
  | l :: ls => l ++ '\n' :: joinNl ls

/-- Remove leading whitespace (String.prototype.trimStart). -/
def jsTrimL (s : List Char) : List Char := s.dropWhile isSpaceJS

/-- Remove trailing whitespace (String.prototype.trimEnd). -/
def jsTrimR : List Char → List Char
  | [] => []
  | c :: cs =>
    match jsTrimR cs with
    | [] => if isSpaceJS c then [] else [c]
    | r => c :: r

/-- Remove leading and trailing whitespace (String.prototype.trim). -/
def jsTrim (s : List Char) : List Char := jsTrimR (jsTrimL s)

/-- One global pass of raw.replace(backslash-r-backslash-n, newline): replace
each non-overlapping CRLF pair, scanning left to right without rescanning. -/
def replCRLF : List Char → List Char
  | [] => []
  | [c] => [c]
  | c :: d :: cs =>
    if c = '\r' then
      if d = '\n' then '\n' :: replCRLF cs
      else c :: replCRLF (d :: cs)
    else c :: replCRLF (d :: cs)

/-- Pattern "RECENT JOB BRIEF" from App.tsx. -/
def RJB : List Char :=
  ['R', 'E', 'C', 'E', 'N', 'T', ' ', 'J', 'O', 'B', ' ', 'B', 'R', 'I', 'E', 'F']

/-- Pattern "Choose mode:" from App.tsx. -/
def pCHOOSE : List Char := ['C', 'h', 'o', 'o', 's', 'e', ' ', 'm', 'o', 'd', 'e', ':']

/-- Pattern "Company:" from App.tsx. -/
def pCOMPANY : List Char := ['C', 'o', 'm', 'p', 'a', 'n', 'y', ':']

/-- Pattern "Role:" from App.tsx. -/
def pROLE : List Char := ['R', 'o', 'l', 'e', ':']

/-- Pattern "JOB RESEARCH COMPLETE" from App.tsx. -/
def pJRC : List Char :=
  ['J', 'O', 'B', ' ', 'R', 'E', 'S', 'E', 'A', 'R', 'C', 'H', ' ',
   'C', 'O', 'M', 'P', 'L', 'E', 'T', 'E']

/-- Pattern "Bye 👋" from App.tsx. -/
def pBYE : List Char := ['B', 'y', 'e', ' ', '👋']

/-- Does the string match the regex anchored-equals-run (one or more '='
characters and nothing else)? -/
def isEqRun (s : List Char) : Bool :=
  !s.isEmpty && s.all (fun c => decide (c = '='))

/-- The per-line filter body of stripCliNoise, applied to the trimmed line. -/
def keepCore (s : List Char) : Bool :=
  !startsWithL pCHOOSE s &&
  !startsWithL pCOMPANY s &&
  !startsWithL pROLE s &&
  !decide (s = pJRC) &&
  !containsSub pJRC s &&
  !decide (s = pBYE) &&
  !isEqRun s

/-- The line filter of stripCliNoise: trim the line, then apply the checks. -/
def keepLine (line : List Char) : Bool := keepCore (jsTrim line)

/-- stripCliNoise from App.tsx lines 55-89: normalise CRLF, split into lines,
drop CLI prompts / banners / separator lines, re-join, trim, and cut from the
first occurrence of "RECENT JOB BRIEF" when present. -/
def stripCliNoise (raw : List Char) : List Char :=
  if raw.isEmpty then []
  else
    let lines := splitNl (replCRLF raw)
    let cleaned := lines.filter keepLine
    let out := jsTrim (joinNl cleaned)
    match idxOfSub RJB out with
    | some i => jsTrim (out.drop i)
    | none => out

/-- Every line of the string passes the line filter of stripCliNoise. -/
def allKept (x : List Char) : Prop :=
  ∀ l ∈ splitNl x, keepLine l = true

/-- Pieces of text that may include clickable links (type LinkPart of
App.tsx): a plain string or a link with href and label. -/
inductive LinkPart
  | str (s : List Char)
  | link (href : List Char) (label : List Char)
deriving Repr, DecidableEq

/-- Character class of the regex body [^backslash-s closing-paren]+ in the
URL pattern: anything but whitespace and a closing parenthesis. -/
def urlBodyChar (c : Char) : Bool := !isSpaceJS c && !decide (c = ')')

/-- Length of the greedy run of URL-body characters at the head of the text. -/
def runLen : List Char → Nat
  | [] => 0
  | c :: cs => if urlBodyChar c then runLen cs + 1 else 0

/-- Pattern "https://". -/
def pHTTPS : List Char := ['h', 't', 't', 'p', 's', ':', '/', '/']

/-- Pattern "http://". -/
def pHTTP : List Char := ['h', 't', 't', 'p', ':', '/', '/']

/-- Pattern "www.". -/
def pWWW : List Char := ['w', 'w', 'w', '.']

/-- Pattern "http". -/
def pHTTPword : List Char := ['h', 't', 't', 'p']

/-- Attempt the URL regex of linkifyText at the current position; wb says
whether a word boundary holds here (previous character was not a word
character, or start of string).  Returns the match length.  Alternative
order and greediness follow the JavaScript regex: the http(s) alternative is
tried first, the s of https? is preferred, and the body run is maximal. -/
def tryMatch (cs : List Char) (wb : Bool) : Option Nat :=
  if startsWithL pHTTPS cs && decide (runLen (cs.drop 8) ≠ 0) then
    some (8 + runLen (cs.drop 8))
  else if startsWithL pHTTP cs && decide (runLen (cs.drop 7) ≠ 0) then
    some (7 + runLen (cs.drop 7))
  else if wb && startsWithL pWWW cs && decide (runLen (cs.drop 4) ≠ 0) then
    some (4 + runLen (cs.drop 4))
  else none

/-- Href for a matched label: the label itself when it starts with "http",
otherwise "https://" prefixed (App.tsx line 38). -/
def hrefOf (label : List Char) : List Char :=
  if startsWithL pHTTPword label then label else pHTTPS ++ label

/-- Emit the accumulated plain characters (in reverse accumulator order) as a
string part, or nothing when empty — matching the "start > lastIndex" and
"lastIndex < text.length" guards of linkifyText. -/
def flushAcc (acc : List Char) : List LinkPart :=
  if acc.isEmpty then [] else [LinkPart.str acc.reverse]

/-- Left-to-right scan of linkifyText: at each position try the URL regex;
on a match, flush the pending plain text, emit the link part, and continue
after the match; otherwise carry the character into the plain accumulator.
Fuel is the remaining length, so it never runs out when called with the
initial length. -/
def linkifyGo : Nat → List Char → Bool → List Char → List LinkPart
  | 0, cs, _, acc => flushAcc (cs.reverse ++ acc)
  | _ + 1, [], _, acc => flushAcc acc
  | fuel + 1, c :: cs, wb, acc =>
    match tryMatch (c :: cs) wb with
    | some n =>
      let label := (c :: cs).take n
      let rest := (c :: cs).drop n
      flushAcc acc ++ LinkPart.link (hrefOf label) label ::
        linkifyGo fuel rest (!isWordChar (label.getLastD 'x')) []
    | none => linkifyGo fuel cs (!isWordChar c) (c :: acc)

/-- linkifyText from App.tsx lines 23-49. -/
def linkifyText (s : List Char) : List LinkPart :=
  linkifyGo s.length s true []

/-- Concatenate the parts of a linkified text, taking each plain part as-is
and the label (not the href) of each link part. -/
def renderLabels : List LinkPart → List Char
  | [] => []
  | LinkPart.str s :: ps => s ++ renderLabels ps
  | LinkPart.link _ label :: ps => label ++ renderLabels ps

end UI

namespace Pipeline

/-- Modelled from the spec: the five-stage interview taxonomy of §3
(ClassificationResult); the implementing module interview_parser.py is not
under src/. -/
inductive Stage
  | Assessment
  | PhoneScreen
  | Technical
  | OnsiteFinal
  | RecruiterScheduling
deriving Repr, DecidableEq

/-- Modelled from the spec: numeric encoding of the precedence order
OnsiteFinal > Technical > PhoneScreen > Assessment > RecruiterScheduling of
§4.2; interview_parser.py is not under src/. -/
def stageRank : Stage → Nat
  | .OnsiteFinal => 4
  | .Technical => 3
  | .PhoneScreen => 2
  | .Assessment => 1
  | .RecruiterScheduling => 0

/-- Modelled from the spec: the stage precedence list of §4.2, most advanced
first; interview_parser.py is not under src/. -/
def precedenceList : List Stage :=
  [.OnsiteFinal, .Technical, .PhoneScreen, .Assessment, .RecruiterScheduling]

/-- Modelled from the spec: ClassificationResult of §3, a tagged variant over
NotInterview and Interview(stage, confidence); interview_parser.py is not
under src/.  Confidence is a bounded deterministic score (here a percent). -/
inductive Classification
  | NotInterview
  | Interview (stage : Stage) (confidence : Nat)
deriving Repr, DecidableEq

/-- Modelled from the spec: a normalized message of §3 (id, sender, subject,
plain-text body, received timestamp).  The time-phrase scan of the Time
Extractor (§4.3) is abstracted as the list of candidate phrases together
with the absolute instant each resolves to; gmail_reader.py and
interview_parser.py are not under src/. -/
structure RawMessage where
  msgId : Nat
  sender : List Char
  subject : List Char
  body : List Char
  received : Nat
  timeCandidates : List (List Char × Nat)
deriving Repr, DecidableEq

/-- Modelled from the spec: sender domain (the part of the address after the
at sign), used by the deterministic gate of §4.2 and the dedup key of §3;
interview_parser.py is not under src/. -/
def senderDomain (addr : List Char) : List Char :=
  match addr.dropWhile (fun c => decide (c ≠ '@')) with
  | [] => []
  | _ :: rest => rest

/-- Modelled from the spec: the stage-indicative phrase sets of the
deterministic keyword gate of §4.2 (the spec's examples, plus the recruiter
phrases named in §8); interview_parser.py is not under src/. -/
def stagePhrases : Stage → List (List Char)
  | .OnsiteFinal => ["onsite".toList, "final round".toList]
  | .Technical => ["technical interview".toList]
  | .PhoneScreen => ["phone screen".toList]
  | .Assessment => ["assessment".toList]
  | .RecruiterScheduling =>
      ["schedule a call".toList, "recruiter screening call".toList, "recruiter call".toList]

/-- Modelled from the spec: the known applicant-tracking-system domains of
the gate of §4.2; interview_parser.py is not under src/. -/
def atsDomains : List (List Char) :=
  ["greenhouse.io".toList, "lever.co".toList, "myworkday.com".toList, "ashbyhq.com".toList]

/-- Modelled from the spec: the text the classifier examines — subject and
body (§4.2 examines both); interview_parser.py is not under src/. -/
def msgText (m : RawMessage) : List Char := m.subject ++ m.body

/-- Modelled from the spec: does the text contain a cue phrase of the given
stage (§4.2 step 1); interview_parser.py is not under src/. -/
def hasStageCue (text : List Char) (s : Stage) : Bool :=
  (stagePhrases s).any (fun p => UI.containsSub p text)

/-- Modelled from the spec: the stages with a cue in the text, in precedence
order (§4.2 step 2); interview_parser.py is not under src/. -/
def cueStages (text : List Char) : List Stage :=
  precedenceList.filter (hasStageCue text)

/-- Modelled from the spec: the deterministic keyword/pattern classifier of
§4.2 — gate on a stage cue or a known ATS sender domain, else NotInterview;
on a pass, assign the most advanced cued stage (precedence order); a pass on
the ATS domain alone yields the weakest stage, RecruiterScheduling.
Confidence is a fixed deterministic score.  interview_parser.py is not under
src/. -/
def classifyDet (m : RawMessage) : Classification :=
  match cueStages (msgText m) with
  | [] =>
    if atsDomains.contains (senderDomain m.sender) then
      .Interview .RecruiterScheduling 50
    else .NotInterview
  | s :: _ => .Interview s 80

/-- Modelled from the spec: pipeline configuration of §6 — default timezone,
dedup window, and the optional classification delegate capability;
job_agent.py is not under src/. -/
structure Config where
  defaultTz : List Char
  dedupWindow : Nat
  delegate : Option (List Char → Option Stage)

/-- Modelled from the spec: the layered classifier of §4.2 — when a delegate
capability is configured and its call succeeds, its stage (one of the five)
is used; a failed capability call falls back to the deterministic gate
(degrade, never halt); with no delegate only the deterministic gate runs.
interview_parser.py is not under src/. -/
def classify (cfg : Config) (capOk : Bool) (m : RawMessage) : Classification :=
  match cfg.delegate with
  | some d =>
    if capOk then
      match d (msgText m) with
      | some st => .Interview st 90
      | none => .NotInterview
    else classifyDet m
  | none => classifyDet m

/-- Modelled from the spec: ExtractedTime of §3 — a candidate event start
instant plus the raw phrase it was derived from; interview_parser.py is not
under src/. -/
structure ExtractedTime where
  instant : Nat
  rawPhrase : List Char
deriving Repr, DecidableEq

/-- Modelled from the spec: the Time Extractor of §4.3 — among the resolved
candidate phrases, select the first one whose instant is in the future
relative to the received timestamp; if none resolve to the future, return
none rather than a past time.  interview_parser.py is not under src/. -/
def extractTime (received : Nat) (cands : List (List Char × Nat)) : Option ExtractedTime :=
  match cands.find? (fun c => decide (received < c.2)) with
  | some c => some ⟨c.2, c.1⟩
  | none => none

/-- Modelled from the spec: a dedup key of §3 — (company-or-sender-domain,
stage, date-bucket); storage.py is not under src/. -/
abbrev DedupKey := List Char × Stage × Nat

/-- Modelled from the spec: a LedgerEntry of §3 — the message ids already
mapped to the key, the external calendar event id if one was created, and
the original extracted time recorded at creation (the reference point of the
rescheduling check of §4.5); storage.py is not under src/. -/
structure LedgerEntry where
  messageIds : List Nat
  eventId : Option Nat
  origTime : Nat
deriving Repr, DecidableEq

/-- Modelled from the spec: the Dedup Ledger of §4.4 as a keyed store;
storage.py is not under src/. -/
abbrev Ledger := DedupKey → Option LedgerEntry

/-- Modelled from the spec: the empty ledger; storage.py is not under src/. -/
def emptyLedger : Ledger := fun _ => none

/-- Modelled from the spec: ledger lookup of §4.4; storage.py is not under
src/. -/
def lookup (L : Ledger) (k : DedupKey) : Option LedgerEntry := L k

/-- Modelled from the spec: record(key, message_id, event_id) of §4.4 — an
upsert that appends the message id to the entry's membership and sets the
event id only if none is recorded yet: an event id, once set, is never
overwritten (append-only for event identity, update-only for membership).
The original time is set at creation and never changed.  storage.py is not
under src/. -/
def record (L : Ledger) (k : DedupKey) (mid : Nat) (eid : Option Nat) (t : Nat) : Ledger :=
  fun k' =>
    if k' = k then
      match L k with
      | none => some { messageIds := [mid], eventId := eid, origTime := t }
      | some e =>
        some { messageIds := mid :: e.messageIds,
               eventId := match e.eventId with
                          | some v => some v
                          | none => eid,
               origTime := e.origTime }
    else L k'

/-- Modelled from the spec: apply a sequence of record calls (§4.4);
storage.py is not under src/. -/
def applyRecords (L : Ledger) : List (DedupKey × Nat × Option Nat × Nat) → Ledger
  | [] => L
  | (k, mid, eid, t) :: ops => applyRecords (record L k mid eid t) ops

/-- Modelled from the spec: the dedup key computed by the Sync Planner in
the TimeResolved state of §4.5 — sender domain, stage, and the date-bucket
of the extracted time (bucketing by the configured dedup window);
job_agent.py and storage.py are not under src/. -/
def dedupKey (cfg : Config) (m : RawMessage) (st : Stage) (t : Nat) : DedupKey :=
  (senderDomain m.sender, st, t / cfg.dedupWindow)

/-- Modelled from the spec: distance between two instants, for the
materially-different-window check of §4.5; job_agent.py is not under src/. -/
def natDist (a b : Nat) : Nat := (a - b) + (b - a)

/-- Modelled from the spec: are two instants within the same scheduling
window (§4.5: no drift / same date-bucket)?  job_agent.py is not under
src/. -/
def sameWindow (cfg : Config) (t₁ t₂ : Nat) : Bool :=
  decide (natDist t₁ t₂ ≤ cfg.dedupWindow)

/-- Modelled from the spec: the decision variants of §3 (Skip carries the
reason string); job_agent.py is not under src/. -/
inductive Decision
  | Skip (reason : List Char)
  | CreateEvent
  | UpdateEvent
deriving Repr, DecidableEq

/-- Modelled from the spec: Skip reason of the Discarded state (§4.5). -/
def notInterviewReason : List Char := "not interview-related".toList

/-- Modelled from the spec: Skip reason of the TimePending state (§4.5). -/
def noTimeReason : List Char := "no actionable time found".toList

/-- Modelled from the spec: Skip reason of the duplicate branch (§4.5). -/
def dupReason : List Char := "duplicate of already-synced interview".toList

/-- Modelled from the spec: the Skip-like sync-failed outcome of §7. -/
def syncFailedReason : List Char := "sync-failed, retry next run".toList

/-- Modelled from the spec: Skip reason recorded for a MalformedMessage
(§7: reported, excluded from classification, counted as an error). -/
def malformedReason : List Char := "malformed message".toList

/-- Modelled from the spec: a SyncDecision record of §3 — message id,
classification (none for a malformed message), optional extracted time, the
dedup key consulted (for auditability of the dedup branches), and the
decision; job_agent.py is not under src/. -/
structure SyncDecision where
  msgId : Nat
  classification : Option Classification
  time : Option ExtractedTime
  key : Option DedupKey
  decision : Decision
deriving Repr, DecidableEq

/-- Modelled from the spec: the external outcomes of one run (§7): per
message, whether its body decodes (MalformedMessage otherwise), whether a
delegated capability call succeeds (CapabilityFailure otherwise), whether a
calendar-sink call succeeds (SinkFailure otherwise); and whether the ledger
storage is readable and writable at all.  The collaborators themselves
(Gmail, Calendar, the delegate) are not under src/. -/
structure Env where
  decodeOk : Nat → Bool
  capOk : Nat → Bool
  sinkOk : Nat → Bool
  ledgerOk : Bool

/-- Modelled from the spec: the state threaded through a run — the working
ledger and the next fresh external event id the calendar sink would return;
calendar_push.py and storage.py are not under src/. -/
structure RunState where
  ledger : Ledger
  nextEventId : Nat

/-- Modelled from the spec: the Sync Planner state machine of §4.5 for one
message.  Malformed messages are excluded from classification and get an
error-reason Skip.  Discarded: NotInterview yields Skip with the
not-interview reason and an untouched ledger.  TimePending: no extracted
time yields Skip.  TimeResolved: compute the dedup key and look up the
ledger — absent yields CreateEvent and records (key, message id, new event
id); present within the same window yields Skip (duplicate) and records
membership only; present with a materially different time yields UpdateEvent
against the existing event id and records membership.  In dry-run mode the
machine runs identically, including lookups and working-state records, but
no sink call is issued (§4.5); a failed sink call in a real run yields the
Skip-like sync-failed outcome and records nothing (§7).  job_agent.py and
calendar_push.py are not under src/. -/
def planMessage (cfg : Config) (env : Env) (dryRun : Bool) (st : RunState) (m : RawMessage) :
    SyncDecision × RunState :=
  if env.decodeOk m.msgId = false then
    (⟨m.msgId, none, none, none, .Skip malformedReason⟩, st)
  else
    match classify cfg (env.capOk m.msgId) m with
    | .NotInterview =>
      (⟨m.msgId, some .NotInterview, none, none, .Skip notInterviewReason⟩, st)
    | .Interview stg conf =>
      match extractTime m.received m.timeCandidates with
      | none =>
        (⟨m.msgId, some (.Interview stg conf), none, none, .Skip noTimeReason⟩, st)
      | some et =>
        let k := dedupKey cfg m stg et.instant
        match lookup st.ledger k with
        | none =>
          if dryRun || env.sinkOk m.msgId then
            (⟨m.msgId, some (.Interview stg conf), some et, some k, .CreateEvent⟩,
             ⟨record st.ledger k m.msgId (some st.nextEventId) et.instant,
              st.nextEventId + 1⟩)
          else
            (⟨m.msgId, some (.Interview stg conf), some et, some k, .Skip syncFailedReason⟩, st)
        | some e =>
          if sameWindow cfg et.instant e.origTime then
            (⟨m.msgId, some (.Interview stg conf), some et, some k, .Skip dupReason⟩,
             ⟨record st.ledger k m.msgId none et.instant, st.nextEventId⟩)
          else
            if dryRun || env.sinkOk m.msgId then
              (⟨m.msgId, some (.Interview stg conf), some et, some k, .UpdateEvent⟩,
               ⟨record st.ledger k m.msgId none et.instant, st.nextEventId⟩)
            else
              (⟨m.msgId, some (.Interview stg conf), some et, some k, .Skip syncFailedReason⟩, st)

/-- Modelled from the spec: fold the planner over a batch, threading the
working state and collecting one SyncDecision per message (§4.5, §6);
job_agent.py is not under src/. -/
def runBatch (cfg : Config) (env : Env) (dryRun : Bool) :
    RunState → List RawMessage → List SyncDecision × RunState
  | st, [] => ([], st)
  | st, m :: ms =>
    let r := planMessage cfg env dryRun st m
    let rest := runBatch cfg env dryRun r.2 ms
    (r.1 :: rest.1, rest.2)

/-- Modelled from the spec: the Summary Reporter output of §4.6 — counts per
stage and an errors bucket; job_agent.py is not under src/. -/
structure SummaryReport where
  stageCounts : List (Stage × Nat)
  errors : Nat
deriving Repr, DecidableEq

/-- Modelled from the spec: the stage a decision was classified into, if
any; job_agent.py is not under src/. -/
def stageOf (d : SyncDecision) : Option Stage :=
  match d.classification with
  | some (.Interview s _) => some s
  | _ => none

/-- Modelled from the spec: the Summary Reporter of §4.6 — pure aggregation
of the decisions into per-stage counts plus the errors bucket; job_agent.py
is not under src/. -/
def summarize (ds : List SyncDecision) : SummaryReport :=
  { stageCounts :=
      precedenceList.map (fun s => (s, (ds.filter (fun d => decide (stageOf d = some s))).length)),
    errors := (ds.filter (fun d => decide (d.classification = none))).length }

/-- Modelled from the spec: the fatal error of §7 — the ledger storage
cannot be read or written at all; storage.py is not under src/. -/
inductive BatchError
  | LedgerStorageFailure
deriving Repr, DecidableEq

/-- Modelled from the spec: process_batch of §6, the sole entry point.  A
ledger storage failure aborts the whole batch (§7).  Otherwise the planner
runs over every message; after a real run the working ledger and event-id
counter are persisted, while a dry run leaves the persisted state exactly as
before (§4.5 dry-run mode is side-effect-free on persisted state).
job_agent.py is not under src/. -/
def processBatch (cfg : Config) (env : Env) (msgs : List RawMessage) (dryRun : Bool)
    (L : Ledger) (ctr : Nat) :
    Except BatchError (List SyncDecision × Ledger × Nat × SummaryReport) :=
  if env.ledgerOk = false then .error .LedgerStorageFailure
  else
    let r := runBatch cfg env dryRun ⟨L, ctr⟩ msgs
    .ok (r.1, (if dryRun then L else r.2.ledger), (if dryRun then ctr else r.2.nextEventId),
         summarize r.1)

/-- Count of CreateEvent decisions recorded against the given dedup key. -/
def countCreates (k : DedupKey) (ds : List SyncDecision) : Nat :=
  (ds.filter (fun d => decide (d.decision = .CreateEvent ∧ d.key = some k))).length

/-- Modelled from the spec: the data of a message that would reach the
TimeResolved state (§4.5): its dedup key and extracted instant, when the
message decodes, classifies as an interview, and has an actionable time;
job_agent.py is not under src/. -/
def readyInfo (cfg : Config) (env : Env) (m : RawMessage) : Option (DedupKey × Nat) :=
  if env.decodeOk m.msgId = false then none
  else
    match classify cfg (env.capOk m.msgId) m with
    | .NotInterview => none
    | .Interview stg _ =>
      match extractTime m.received m.timeCandidates with
      | none => none
      | some et => some (dedupKey cfg m stg et.instant, et.instant)

/-- Ledger evolution order: every entry of the smaller ledger is present in
the larger one, with the same original time, and an event id, once set, is
still set to the same value. -/
def ledgerLe (L₁ L₂ : Ledger) : Prop :=
  ∀ k e, L₁ k = some e →
    ∃ e', L₂ k = some e' ∧ e'.origTime = e.origTime ∧
      ∀ v, e.eventId = some v → e'.eventId = some v

end Pipeline

namespace UI

theorem renderLabels_append (a b : List LinkPart) :
    renderLabels (a ++ b) = renderLabels a ++ renderLabels b := by
  induction a with
  | nil => simp [renderLabels]
  | cons p ps ih => cases p <;> simp [renderLabels, ih]

theorem renderLabels_flushAcc (acc : List Char) :
    renderLabels (flushAcc acc) = acc.reverse := by
  by_cases h : acc = [] <;> simp [flushAcc, renderLabels, h]

theorem linkifyGo_render (fuel : Nat) :
    ∀ cs wb acc, renderLabels (linkifyGo fuel cs wb acc) = acc.reverse ++ cs := by
  induction fuel with
  | zero => intro cs wb acc; simp [linkifyGo, renderLabels_flushAcc]
  | succ n ih =>
    intro cs wb acc
    cases cs with
    | nil => simp [linkifyGo, renderLabels_flushAcc]
    | cons c cs' =>
      simp only [linkifyGo]
      cases h : tryMatch (c :: cs') wb with
      | none => rw [ih]; simp
      | some k =>
        simp only [renderLabels_append, renderLabels, renderLabels_flushAcc, ih,
          List.reverse_nil, List.nil_append, ← List.append_assoc, List.take_append_drop]

end UI

namespace UI

theorem splitNl_ne_nil (s : List Char) : splitNl s ≠ [] := by
  cases s with
  | nil => simp [splitNl]
  | cons c cs =>
    simp only [splitNl]
    split
    · simp
    · split <;> simp

theorem splitNl_cons_nl (cs : List Char) : splitNl ('\n' :: cs) = [] :: splitNl cs := by
  simp [splitNl]

theorem splitNl_cons_other (c : Char) (cs : List Char) (h : c ≠ '\n') :
    ∃ l ls, splitNl cs = l :: ls ∧ splitNl (c :: cs) = (c :: l) :: ls := by
  cases hcs : splitNl cs with
  | nil => exact absurd hcs (splitNl_ne_nil cs)
  | cons l ls => exact ⟨l, ls, rfl, by simp [splitNl, h, hcs]⟩

theorem joinNl_cons (l : List Char) (ls : List (List Char)) (h : ls ≠ []) :
    joinNl (l :: ls) = l ++ '\n' :: joinNl ls := by
  cases ls with
  | nil => exact absurd rfl h
  | cons a as => rfl

theorem joinNl_splitNl (s : List Char) : joinNl (splitNl s) = s := by
  induction s with
  | nil => rfl
  | cons c cs ih =>
    by_cases h : c = '\n'
    · subst h
      rw [splitNl_cons_nl, joinNl_cons _ _ (splitNl_ne_nil cs)]
      simp [ih]
    · obtain ⟨l, ls, h1, h2⟩ := splitNl_cons_other c cs h
      rw [h2]
      cases ls with
      | nil =>
        have := ih
        rw [h1] at this
        simpa [joinNl] using congrArg (c :: ·) this
      | cons b bs =>
        rw [joinNl_cons _ _ (by simp)]
        have := ih
        rw [h1, joinNl_cons _ _ (by simp)] at this
        simpa using congrArg (c :: ·) this

theorem noNl_of_mem_splitNl (s : List Char) :
    ∀ l ∈ splitNl s, '\n' ∉ l := by
  induction s with
  | nil => intro l hl; simp [splitNl] at hl; simp [hl]
  | cons c cs ih =>
    intro l hl
    by_cases h : c = '\n'
    · subst h
      rw [splitNl_cons_nl] at hl
      rcases List.mem_cons.mp hl with hl | hl
      · simp [hl]
      · exact ih l hl
    · obtain ⟨a, as, h1, h2⟩ := splitNl_cons_other c cs h
      rw [h2] at hl
      rcases List.mem_cons.mp hl with hl | hl
      · subst hl
        intro hmem
        rcases List.mem_cons.mp hmem with hmem | hmem
        · exact h hmem.symm
        · exact ih a (by rw [h1]; exact List.mem_cons_self a as) hmem
      · exact ih l (by rw [h1]; exact List.mem_cons_of_mem a hl)

theorem splitNl_noNl (l : List Char) (h : '\n' ∉ l) : splitNl l = [l] := by
  induction l with
  | nil => rfl
  | cons c cs ih =>
    have hc : c ≠ '\n' := fun hc => h (by simp [hc])
    obtain ⟨a, as, h1, h2⟩ := splitNl_cons_other c cs hc
    have : splitNl cs = [cs] := ih (fun hm => h (List.mem_cons_of_mem c hm))
    rw [this] at h1
    cases h1
    simpa using h2

theorem splitNl_append_nl (l z : List Char) (h : '\n' ∉ l) :
    splitNl (l ++ '\n' :: z) = l :: splitNl z := by
  induction l with
  | nil => simp [splitNl_cons_nl]
  | cons c cs ih =>
    have hc : c ≠ '\n' := fun hc => h (by simp [hc])
    have ihcs := ih (fun hm => h (List.mem_cons_of_mem c hm))
    obtain ⟨a, as, h1, h2⟩ := splitNl_cons_other c (cs ++ '\n' :: z) hc
    rw [ihcs] at h1
    cases h1
    simpa using h2

theorem splitNl_joinNl (ls : List (List Char)) (hnl : ∀ l ∈ ls, '\n' ∉ l)
    (hne : ls ≠ []) : splitNl (joinNl ls) = ls := by
  induction ls with
  | nil => exact absurd rfl hne
  | cons l rest ih =>
    cases rest with
    | nil =>
      simp only [joinNl]
      exact splitNl_noNl l (hnl l (by simp))
    | cons b bs =>
      rw [joinNl_cons _ _ (by simp)]
      rw [splitNl_append_nl _ _ (hnl l (by simp))]
      rw [ih (fun x hx => hnl x (List.mem_cons_of_mem l hx)) (by simp)]

theorem mem_of_mem_splitNl (s : List Char) :
    ∀ l ∈ splitNl s, ∀ c ∈ l, c ∈ s := by
  induction s with
  | nil => intro l hl c hc; simp [splitNl] at hl; subst hl; simp at hc
  | cons a as ih =>
    intro l hl c hc
    by_cases h : a = '\n'
    · subst h
      rw [splitNl_cons_nl] at hl
      rcases List.mem_cons.mp hl with hl | hl
      · subst hl; simp at hc
      · exact List.mem_cons_of_mem _ (ih l hl c hc)
    · obtain ⟨x, xs, h1, h2⟩ := splitNl_cons_other a as h
      rw [h2] at hl
      rcases List.mem_cons.mp hl with hl | hl
      · subst hl
        rcases List.mem_cons.mp hc with hc | hc
        · simp [hc]
        · exact List.mem_cons_of_mem _ (ih x (by rw [h1]; simp) c hc)
      · exact List.mem_cons_of_mem _ (ih l (by rw [h1]; exact List.mem_cons_of_mem x hl) c hc)

theorem mem_joinNl (ls : List (List Char)) :
    ∀ c ∈ joinNl ls, c = '\n' ∨ ∃ l ∈ ls, c ∈ l := by
  induction ls with
  | nil => intro c hc; simp [joinNl] at hc
  | cons l rest ih =>
    intro c hc
    cases rest with
    | nil =>
      right
      exact ⟨l, by simp, by simpa [joinNl] using hc⟩
    | cons b bs =>
      rw [joinNl_cons _ _ (by simp)] at hc
      rcases List.mem_append.mp hc with hc | hc
      · exact Or.inr ⟨l, by simp, hc⟩
      · rcases List.mem_cons.mp hc with hc | hc
        · exact Or.inl hc
        · rcases ih c hc with h | ⟨x, hx, hcx⟩
          · exact Or.inl h
          · exact Or.inr ⟨x, List.mem_cons_of_mem l hx, hcx⟩

end UI

namespace UI

theorem jsTrimR_cons_nil (c : Char) (cs : List Char) (h : jsTrimR cs = []) :
    jsTrimR (c :: cs) = if isSpaceJS c then [] else [c] := by
  simp [jsTrimR, h]

theorem jsTrimR_cons_cons (c : Char) (cs r : List Char) (a : Char) (h : jsTrimR cs = a :: r) :
    jsTrimR (c :: cs) = c :: a :: r := by
  simp [jsTrimR, h]

theorem jsTrimR_eq_nil_iff (s : List Char) :
    jsTrimR s = [] ↔ ∀ c ∈ s, isSpaceJS c = true := by
  induction s with
  | nil => simp [jsTrimR]
  | cons c cs ih =>
    cases h : jsTrimR cs with
    | nil =>
      rw [jsTrimR_cons_nil c cs h]
      have hcs := ih.mp h
      by_cases hw : isSpaceJS c = true
      · simp only [hw, if_true, true_iff]
        intro x hx
        rcases List.mem_cons.mp hx with hx | hx
        · subst hx; exact hw
        · exact hcs x hx
      · simp only [Bool.not_eq_true] at hw
        simp only [hw, Bool.false_eq_true, if_false]
        constructor
        · intro hc; simp at hc
        · intro hall
          have := hall c (by simp)
          rw [hw] at this
          cases this
    | cons a r =>
      rw [jsTrimR_cons_cons c cs r a h]
      constructor
      · intro hc; simp at hc
      · intro hall
        have : jsTrimR cs = [] := ih.mpr (fun x hx => hall x (List.mem_cons_of_mem c hx))
        rw [this] at h; cases h

theorem jsTrimR_idem (s : List Char) : jsTrimR (jsTrimR s) = jsTrimR s := by
  induction s with
  | nil => rfl
  | cons c cs ih =>
    cases h : jsTrimR cs with
    | nil =>
      rw [jsTrimR_cons_nil c cs h]
      by_cases hw : isSpaceJS c = true
      · simp [hw, jsTrimR]
      · simp only [Bool.not_eq_true] at hw
        simp only [hw, Bool.false_eq_true, if_false]
        rw [jsTrimR_cons_nil c [] rfl, hw]
        simp
    | cons a r =>
      rw [jsTrimR_cons_cons c cs r a h]
      rw [h] at ih
      exact jsTrimR_cons_cons c (a :: r) r a ih

theorem jsTrimL_cons (c : Char) (s : List Char) :
    jsTrimL (c :: s) = if isSpaceJS c then jsTrimL s else c :: s := by
  simp [jsTrimL, List.dropWhile_cons]

theorem jsTrimL_idem (s : List Char) : jsTrimL (jsTrimL s) = jsTrimL s := by
  induction s with
  | nil => rfl
  | cons c cs ih =>
    rw [jsTrimL_cons]
    by_cases hw : isSpaceJS c = true
    · simp [hw, ih]
    · simp [hw, jsTrimL_cons]

theorem jsTrimL_eq_nil_iff (s : List Char) :
    jsTrimL s = [] ↔ ∀ c ∈ s, isSpaceJS c = true := by
  simp [jsTrimL, List.dropWhile_eq_nil_iff]

theorem jsTrimL_jsTrimR_comm (s : List Char) :
    jsTrimL (jsTrimR s) = jsTrimR (jsTrimL s) := by
  induction s with
  | nil => rfl
  | cons c cs ih =>
    cases h : jsTrimR cs with
    | nil =>
      have hall := (jsTrimR_eq_nil_iff cs).mp h
      have hL : jsTrimL cs = [] := (jsTrimL_eq_nil_iff cs).mpr hall
      by_cases hw : isSpaceJS c = true
      · rw [jsTrimR_cons_nil c cs h, jsTrimL_cons]
        simp only [hw, if_true]
        rw [hL]
        rfl
      · simp only [Bool.not_eq_true] at hw
        rw [jsTrimR_cons_nil c cs h, jsTrimL_cons]
        simp [hw, jsTrimL, jsTrimR_cons_nil c cs h]
    | cons a r =>
      by_cases hw : isSpaceJS c = true
      · rw [jsTrimR_cons_cons c cs r a h]
        conv_lhs => rw [jsTrimL_cons]
        conv_rhs => rw [jsTrimL_cons]
        simp only [hw, if_true]
        rw [← h, ih]
      · simp only [Bool.not_eq_true] at hw
        rw [jsTrimR_cons_cons c cs r a h]
        conv_lhs => rw [jsTrimL_cons]
        conv_rhs => rw [jsTrimL_cons]
        simp only [hw, Bool.false_eq_true, if_false]
        exact (jsTrimR_cons_cons c cs r a h).symm

theorem jsTrim_idem (s : List Char) : jsTrim (jsTrim s) = jsTrim s := by
  unfold jsTrim
  rw [jsTrimL_jsTrimR_comm, jsTrimL_idem, jsTrimR_idem]

theorem jsTrim_jsTrimL (s : List Char) : jsTrim (jsTrimL s) = jsTrim s := by
  unfold jsTrim
  rw [jsTrimL_idem]

theorem jsTrim_jsTrimR (s : List Char) : jsTrim (jsTrimR s) = jsTrim s := by
  unfold jsTrim
  rw [jsTrimL_jsTrimR_comm, jsTrimR_idem]

theorem jsTrim_cons_ws (c : Char) (s : List Char) (h : isSpaceJS c = true) :
    jsTrim (c :: s) = jsTrim s := by
  unfold jsTrim
  rw [jsTrimL_cons]
  simp [h]

theorem jsTrim_allWs (s : List Char) (h : ∀ c ∈ s, isSpaceJS c = true) :
    jsTrim s = [] := by
  unfold jsTrim
  rw [(jsTrimL_eq_nil_iff s).mpr h]
  rfl

theorem jsTrimR_append (a b : List Char) :
    jsTrimR (a ++ b) = if jsTrimR b = [] then jsTrimR a else a ++ jsTrimR b := by
  induction a with
  | nil =>
    cases h : jsTrimR b with
    | nil => simp [h, jsTrimR]
    | cons x r => simp [h]
  | cons c a' ih =>
    cases h2 : jsTrimR (a' ++ b) with
    | nil =>
      rw [List.cons_append, jsTrimR_cons_nil c (a' ++ b) h2]
      rw [h2] at ih
      cases hb : jsTrimR b with
      | nil =>
        rw [hb] at ih
        simp only [if_true, eq_self_iff_true] at ih ⊢
        rw [jsTrimR_cons_nil c a' ih.symm]
      | cons x r =>
        rw [hb] at ih
        simp at ih
    | cons x r =>
      rw [List.cons_append, jsTrimR_cons_cons c (a' ++ b) r x h2]
      cases hb : jsTrimR b with
      | nil =>
        rw [hb] at ih
        simp only [if_true, eq_self_iff_true] at ih ⊢
        rw [h2] at ih
        exact (jsTrimR_cons_cons c a' r x ih.symm).symm
      | cons y q =>
        rw [hb] at ih
        simp only [if_neg (by simp : (y :: q : List Char) ≠ [])] at ih ⊢
        rw [h2] at ih
        rw [List.cons_append, ← ih]

theorem jsTrimR_prefix_decomp (s : List Char) : ∃ r, s = jsTrimR s ++ r := by
  induction s with
  | nil => exact ⟨[], rfl⟩
  | cons c cs ih =>
    cases h : jsTrimR cs with
    | nil =>
      rw [jsTrimR_cons_nil c cs h]
      by_cases hw : isSpaceJS c = true
      · simp only [hw, if_true]
        exact ⟨c :: cs, rfl⟩
      · simp only [hw, if_false]
        exact ⟨cs, rfl⟩
    | cons a r =>
      rw [jsTrimR_cons_cons c cs r a h]
      obtain ⟨q, hq⟩ := ih
      rw [h] at hq
      exact ⟨q, by rw [List.cons_append, ← hq]⟩

theorem jsTrim_infix_decomp (s : List Char) : ∃ u v, s = u ++ jsTrim s ++ v := by
  obtain ⟨v, hv⟩ := jsTrimR_prefix_decomp (jsTrimL s)
  refine ⟨s.takeWhile isSpaceJS, v, ?_⟩
  unfold jsTrim
  conv_lhs => rw [← List.takeWhile_append_dropWhile (p := isSpaceJS) (l := s)]
  rw [List.append_assoc, ← hv]
  rfl

end UI

namespace UI

theorem startsWithL_iff (p : List Char) :
    ∀ s, startsWithL p s = true ↔ ∃ r, s = p ++ r := by
  induction p with
  | nil => intro s; simp [startsWithL]
  | cons q ps ih =>
    intro s
    cases s with
    | nil =>
      simp only [startsWithL]
      constructor
      · intro h; cases h
      · rintro ⟨r, hr⟩; cases hr
    | cons c cs =>
      simp only [startsWithL, Bool.and_eq_true, decide_eq_true_eq, ih]
      constructor
      · rintro ⟨hqc, r, hr⟩
        exact ⟨r, by rw [hqc, hr]; rfl⟩
      · rintro ⟨r, hr⟩
        rw [List.cons_append] at hr
        injection hr with h1 h2
        exact ⟨h1.symm, r, h2⟩

theorem containsSub_iff (p : List Char) :
    ∀ s, containsSub p s = true ↔ ∃ u v, s = u ++ p ++ v := by
  intro s
  induction s with
  | nil =>
    simp only [containsSub, List.isEmpty_iff]
    constructor
    · intro h; exact ⟨[], [], by simp [h]⟩
    · rintro ⟨u, v, huv⟩
      rcases List.append_eq_nil.mp huv.symm with ⟨hu, hpv⟩
      exact (List.append_eq_nil.mp hu).2
  | cons c cs ih =>
    simp only [containsSub, Bool.or_eq_true, startsWithL_iff, ih]
    constructor
    · rintro (⟨r, hr⟩ | ⟨u, v, huv⟩)
      · exact ⟨[], r, by simp [hr]⟩
      · exact ⟨c :: u, v, by simp [huv]⟩
    · rintro ⟨u, v, huv⟩
      cases u with
      | nil =>
        left
        exact ⟨v, by simpa using huv⟩
      | cons x u' =>
        right
        rw [List.cons_append, List.cons_append] at huv
        injection huv with h1 h2
        exact ⟨u', v, h2⟩

theorem idxOfSub_zero (p s : List Char) (h : startsWithL p s = true) :
    idxOfSub p s = some 0 := by
  unfold idxOfSub
  simp [h]

theorem idxOfSub_some (p : List Char) :
    ∀ s i, idxOfSub p s = some i → startsWithL p (s.drop i) = true := by
  intro s
  induction s with
  | nil =>
    intro i h
    unfold idxOfSub at h
    by_cases hs : startsWithL p [] = true
    · simp only [hs, if_true, Option.some_inj] at h
      subst h
      simpa using hs
    · simp [hs] at h
  | cons c cs ih =>
    intro i h
    unfold idxOfSub at h
    by_cases hs : startsWithL p (c :: cs) = true
    · simp only [hs, if_true, Option.some_inj] at h
      subst h
      simpa using hs
    · simp only [hs, Bool.false_eq_true, if_false] at h
      cases hidx : idxOfSub p cs with
      | none => rw [hidx] at h; cases h
      | some j =>
        rw [hidx] at h
        simp only [Option.map_some', Option.some_inj] at h
        subst h
        simpa using ih j hidx

theorem replCRLF_noCR (s : List Char) : '\r' ∉ s → replCRLF s = s := by
  induction s using replCRLF.induct with
  | case1 => intro _; rfl
  | case2 c => intro _; rfl
  | case3 cs ih => intro h; exact absurd (by simp) h
  | case4 d cs hd ih => intro h; exact absurd (by simp) h
  | case5 c d cs hc ih =>
    intro h
    simp only [replCRLF, if_neg hc]
    rw [ih (fun hm => h (List.mem_cons_of_mem c hm))]

theorem mem_replCRLF (s : List Char) :
    ∀ c ∈ replCRLF s, c ∈ s ∨ c = '\n' := by
  induction s using replCRLF.induct with
  | case1 => intro c hc; cases hc
  | case2 a => intro c hc; exact Or.inl hc
  | case3 cs ih =>
    intro c hc
    simp only [replCRLF, if_pos rfl] at hc
    rcases List.mem_cons.mp hc with hc | hc
    · exact Or.inr hc
    · rcases ih c hc with h | h
      · exact Or.inl (by simp [h])
      · exact Or.inr h
  | case4 d cs hd ih =>
    intro x hx
    have he : replCRLF ('\r' :: d :: cs) = '\r' :: replCRLF (d :: cs) := by
      simp [replCRLF, hd]
    rw [he] at hx
    rcases List.mem_cons.mp hx with hx | hx
    · exact Or.inl (by simp [hx])
    · rcases ih x hx with h | h
      · exact Or.inl (List.mem_cons_of_mem _ h)
      · exact Or.inr h
  | case5 c d cs hc ih =>
    intro x hx
    simp only [replCRLF, if_neg hc] at hx
    rcases List.mem_cons.mp hx with hx | hx
    · exact Or.inl (by simp [hx])
    · rcases ih x hx with h | h
      · exact Or.inl (List.mem_cons_of_mem c h)
      · exact Or.inr h

theorem mem_jsTrimL (s : List Char) : ∀ c ∈ jsTrimL s, c ∈ s := by
  induction s with
  | nil => intro c hc; cases hc
  | cons a as ih =>
    intro c hc
    rw [jsTrimL_cons] at hc
    by_cases hw : isSpaceJS a = true
    · rw [if_pos hw] at hc
      exact List.mem_cons_of_mem a (ih c hc)
    · rw [if_neg hw] at hc
      exact hc

theorem mem_jsTrimR (s : List Char) : ∀ c ∈ jsTrimR s, c ∈ s := by
  induction s with
  | nil => intro c hc; cases hc
  | cons a as ih =>
    intro c hc
    cases h : jsTrimR as with
    | nil =>
      rw [jsTrimR_cons_nil a as h] at hc
      by_cases hw : isSpaceJS a = true
      · rw [if_pos hw] at hc; cases hc
      · rw [if_neg hw] at hc
        rcases List.mem_cons.mp hc with hc | hc
        · simp [hc]
        · cases hc
    | cons x r =>
      rw [jsTrimR_cons_cons a as r x h] at hc
      rcases List.mem_cons.mp hc with hc | hc
      · simp [hc]
      · exact List.mem_cons_of_mem a (ih c (h ▸ hc))

theorem mem_jsTrim (s : List Char) : ∀ c ∈ jsTrim s, c ∈ s := by
  intro c hc
  exact mem_jsTrimL s c (mem_jsTrimR (jsTrimL s) c hc)

end UI

namespace UI

theorem splitNl_drop (i : Nat) :
    ∀ x : List Char, ∃ h t, splitNl (x.drop i) = h :: t ∧
      (∃ l ∈ splitNl x, h <:+ l) ∧ t <:+ (splitNl x).tail := by
  induction i with
  | zero =>
    intro x
    cases hx : splitNl x with
    | nil => exact absurd hx (splitNl_ne_nil x)
    | cons h t =>
      exact ⟨h, t, by simpa using hx, ⟨h, List.mem_cons_self h t, List.suffix_refl h⟩,
        by exact List.suffix_refl t⟩
  | succ i ih =>
    intro x
    cases x with
    | nil =>
      exact ⟨[], [], rfl, ⟨[], by simp [splitNl], List.suffix_refl []⟩, by simp [splitNl]⟩
    | cons c cs =>
      obtain ⟨h, t, he, ⟨l, hl, hsuf⟩, htail⟩ := ih cs
      rw [List.drop_succ_cons]
      by_cases hc : c = '\n'
      · subst hc
        refine ⟨h, t, he, ⟨l, ?_, hsuf⟩, ?_⟩
        · rw [splitNl_cons_nl]
          exact List.mem_cons_of_mem _ hl
        · rw [splitNl_cons_nl]
          exact htail.trans (List.tail_suffix (splitNl cs))
      · obtain ⟨h₀, t₀, e1, e2⟩ := splitNl_cons_other c cs hc
        rw [e1] at hl htail
        refine ⟨h, t, he, ?_, ?_⟩
        · rcases List.mem_cons.mp hl with hl | hl
          · subst hl
            exact ⟨c :: l, by rw [e2]; simp, hsuf.trans ⟨[c], rfl⟩⟩
          · exact ⟨l, by rw [e2]; exact List.mem_cons_of_mem _ hl, hsuf⟩
        · rw [e2]
          simpa using htail

theorem lines_jsTrimL (y : List Char) :
    ∀ l ∈ splitNl (jsTrimL y), ∃ l2 ∈ splitNl y, jsTrim l = jsTrim l2 := by
  induction y with
  | nil => intro l hl; exact ⟨l, hl, rfl⟩
  | cons c cs ih =>
    intro l hl
    rw [jsTrimL_cons] at hl
    by_cases hw : isSpaceJS c = true
    · rw [if_pos hw] at hl
      obtain ⟨l2, hl2, he⟩ := ih l hl
      by_cases hc : c = '\n'
      · subst hc
        exact ⟨l2, by rw [splitNl_cons_nl]; exact List.mem_cons_of_mem _ hl2, he⟩
      · obtain ⟨h₀, t₀, e1, e2⟩ := splitNl_cons_other c cs hc
        rw [e1] at hl2
        rcases List.mem_cons.mp hl2 with h2 | h2
        · subst h2
          refine ⟨c :: l2, by rw [e2]; simp, ?_⟩
          rw [he, jsTrim_cons_ws c l2 hw]
        · exact ⟨l2, by rw [e2]; exact List.mem_cons_of_mem _ h2, he⟩
    · rw [if_neg hw] at hl
      exact ⟨l, hl, rfl⟩

theorem lines_jsTrimR_pos (y : List Char) :
    ∃ m, m < (splitNl y).length ∧
      splitNl (jsTrimR y) = (splitNl y).take m ++ [jsTrimR ((splitNl y).getD m [])] := by
  induction y with
  | nil => exact ⟨0, by simp [splitNl], by simp [splitNl, jsTrimR]⟩
  | cons c cs ih =>
    cases h : jsTrimR cs with
    | nil =>
      have hall := (jsTrimR_eq_nil_iff cs).mp h
      by_cases hc : c = '\n'
      · subst hc
        rw [jsTrimR_cons_nil _ cs h, if_pos (by decide)]
        refine ⟨0, by rw [splitNl_cons_nl]; simp, ?_⟩
        rw [splitNl_cons_nl]
        simp [splitNl, jsTrimR]
      · obtain ⟨h₀, t₀, e1, e2⟩ := splitNl_cons_other c cs hc
        have hh₀ : jsTrimR h₀ = [] := by
          rw [jsTrimR_eq_nil_iff]
          intro x hx
          exact hall x (mem_of_mem_splitNl cs h₀ (by rw [e1]; simp) x hx)
        rw [jsTrimR_cons_nil c cs h]
        by_cases hw : isSpaceJS c = true
        · rw [if_pos hw]
          refine ⟨0, by rw [e2]; simp, ?_⟩
          rw [e2]
          simp only [List.take_zero, List.getD_cons_zero, List.nil_append, splitNl]
          rw [jsTrimR_cons_nil c h₀ hh₀, if_pos hw]
        · rw [if_neg hw]
          refine ⟨0, by rw [e2]; simp, ?_⟩
          rw [e2]
          simp only [List.take_zero, List.getD_cons_zero, List.nil_append]
          rw [jsTrimR_cons_nil c h₀ hh₀, if_neg hw]
          have : c ≠ '\n' := hc
          simp [splitNl, this]
    | cons a r =>
      obtain ⟨m, hm, he⟩ := ih
      rw [jsTrimR_cons_cons c cs r a h]
      by_cases hc : c = '\n'
      · subst hc
        refine ⟨m + 1, ?_, ?_⟩
        · rw [splitNl_cons_nl]
          simpa using hm
        · rw [splitNl_cons_nl, splitNl_cons_nl, ← h, he]
          simp [List.take_succ_cons, List.getD_cons_succ]
      · obtain ⟨h₀, t₀, e1, e2⟩ := splitNl_cons_other c cs hc
        rw [e1] at he hm
        cases m with
        | zero =>
          simp only [List.take_zero, List.getD_cons_zero, List.nil_append] at he
          have hjoin : jsTrimR cs = jsTrimR h₀ := by
            have := joinNl_splitNl (jsTrimR cs)
            rw [he] at this
            simpa [joinNl] using this.symm
          have hR : jsTrimR h₀ = a :: r := by rw [← hjoin, h]
          obtain ⟨h₁, t₁, f1, f2⟩ := splitNl_cons_other c (a :: r) hc
          have hsplit : splitNl (a :: r) = [jsTrimR h₀] := by rw [← h]; exact he
          rw [hsplit] at f1
          injection f1 with g1 g2
          subst g1; subst g2
          refine ⟨0, by rw [e2]; simp, ?_⟩
          rw [e2, f2]
          simp only [List.take_zero, List.getD_cons_zero, List.nil_append]
          rw [jsTrimR_cons_cons c h₀ r a hR, hR]
        | succ k =>
          simp only [List.take_succ_cons, List.getD_cons_succ, List.cons_append] at he
          obtain ⟨h₁, t₁, f1, f2⟩ := splitNl_cons_other c (a :: r) hc
          rw [← h, he] at f1
          injection f1 with g1 g2
          subst g1; subst g2
          refine ⟨k + 1, ?_, ?_⟩
          · rw [e2]
            simpa using hm
          · rw [e2, f2]
            simp [List.take_succ_cons, List.getD_cons_succ]

theorem lines_jsTrimR (y : List Char) :
    ∀ l ∈ splitNl (jsTrimR y), ∃ l2 ∈ splitNl y, jsTrim l = jsTrim l2 := by
  obtain ⟨m, hm, he⟩ := lines_jsTrimR_pos y
  intro l hl
  rw [he] at hl
  rcases List.mem_append.mp hl with hl | hl
  · exact ⟨l, List.mem_of_mem_take hl, rfl⟩
  · rcases List.mem_cons.mp hl with hl | hl
    · subst hl
      refine ⟨(splitNl y).getD m [], ?_, jsTrim_jsTrimR _⟩
      rw [List.getD_eq_getElem (splitNl y) [] hm]
      exact List.getElem_mem hm
    · cases hl

theorem lines_jsTrim (y : List Char) :
    ∀ l ∈ splitNl (jsTrim y), ∃ l2 ∈ splitNl y, jsTrim l = jsTrim l2 := by
  intro l hl
  obtain ⟨l2, hl2, he⟩ := lines_jsTrimR (jsTrimL y) l hl
  obtain ⟨l3, hl3, he2⟩ := lines_jsTrimL y l2 hl2
  exact ⟨l3, hl3, he.trans he2⟩

end UI

namespace UI

theorem startsWithL_cons_same (a : Char) (ps cs : List Char) :
    startsWithL (a :: ps) (a :: cs) = startsWithL ps cs := by
  simp [startsWithL]

theorem startsWithL_false_head (p : Char) (ps : List Char) (c : Char) (cs : List Char)
    (h : p ≠ c) : startsWithL (p :: ps) (c :: cs) = false := by
  simp [startsWithL, h]

theorem isEqRun_cons_false (c : Char) (x : List Char) (h : c ≠ '=') :
    isEqRun (c :: x) = false := by
  simp [isEqRun, h]

theorem jsTrimL_append (u w : List Char) :
    jsTrimL (u ++ w) = if jsTrimL u = [] then jsTrimL w else jsTrimL u ++ w := by
  induction u with
  | nil => simp [jsTrimL]
  | cons c u' ih =>
    rw [List.cons_append, jsTrimL_cons, jsTrimL_cons]
    by_cases hw : isSpaceJS c = true
    · rw [if_pos hw, if_pos hw, ih]
    · rw [if_neg hw, if_neg hw, if_neg (by simp), List.cons_append]

theorem jsTrimR_ne_nil_append (p v : List Char) (hne : p ≠ []) (hR : jsTrimR p = p) :
    jsTrimR (p ++ v) ≠ [] := by
  intro h
  have hall := (jsTrimR_eq_nil_iff (p ++ v)).mp h
  have : jsTrimR p = [] :=
    (jsTrimR_eq_nil_iff p).mpr (fun c hc => hall c (List.mem_append_left v hc))
  rw [hR] at this
  exact hne this

theorem containsSub_jsTrim_of_trimmed (p s : List Char) (hne : p ≠ [])
    (hL : jsTrimL p = p) (hR : jsTrimR p = p) (h : containsSub p s = true) :
    containsSub p (jsTrim s) = true := by
  obtain ⟨u, v, huv⟩ := (containsSub_iff p s).mp h
  subst huv
  rw [List.append_assoc]
  have hLpart : ∃ u2, jsTrimL (u ++ (p ++ v)) = u2 ++ (p ++ v) := by
    rw [jsTrimL_append]
    by_cases hu : jsTrimL u = []
    · rw [if_pos hu, jsTrimL_append, if_neg (by rw [hL]; exact hne), hL]
      exact ⟨[], rfl⟩
    · rw [if_neg hu]
      exact ⟨jsTrimL u, rfl⟩
  obtain ⟨u2, hu2⟩ := hLpart
  have hpvne : jsTrimR (p ++ v) ≠ [] := jsTrimR_ne_nil_append p v hne hR
  unfold jsTrim
  rw [hu2, jsTrimR_append, if_neg hpvne, jsTrimR_append]
  by_cases hv : jsTrimR v = []
  · rw [if_pos hv, hR]
    exact (containsSub_iff p (u2 ++ p)).mpr ⟨u2, [], by simp⟩
  · rw [if_neg hv]
    exact (containsSub_iff p _).mpr ⟨u2, jsTrimR v, by rw [List.append_assoc]⟩

theorem containsSub_of_suffix_part (a h q : List Char) (p : List Char)
    (hocc : containsSub p h = true) : containsSub p (a ++ (h ++ q)) = true := by
  obtain ⟨u, v, huv⟩ := (containsSub_iff p h).mp hocc
  refine (containsSub_iff p _).mpr ⟨a ++ u, v ++ q, ?_⟩
  rw [huv]
  simp

theorem startsWithL_append_nl (p : List Char) (hp : '\n' ∉ p) :
    ∀ h w, startsWithL p (h ++ '\n' :: w) = true → startsWithL p h = true := by
  induction p with
  | nil => intro h w _; rfl
  | cons q ps ih =>
    intro h w hsw
    cases h with
    | nil =>
      exfalso
      simp only [List.nil_append, startsWithL, Bool.and_eq_true, decide_eq_true_eq] at hsw
      exact hp (by simp [hsw.1])
    | cons a h' =>
      rw [List.cons_append, startsWithL] at hsw
      rcases Bool.and_eq_true_iff.mp hsw with ⟨h1, h2⟩
      rw [startsWithL, h1]
      simp only [Bool.true_and]
      exact ih (fun hm => hp (List.mem_cons_of_mem q hm)) h' w h2

theorem startsWithL_RJB_jsTrim (z : List Char) (h : startsWithL RJB z = true) :
    startsWithL RJB (jsTrim z) = true := by
  obtain ⟨r, hr⟩ := (startsWithL_iff RJB z).mp h
  subst hr
  unfold jsTrim
  rw [jsTrimL_append, if_neg (by rw [show jsTrimL RJB = RJB from rfl]; decide),
    show jsTrimL RJB = RJB from rfl]
  rw [jsTrimR_append]
  by_cases hv : jsTrimR r = []
  · rw [if_pos hv]
    decide
  · rw [if_neg hv]
    exact (startsWithL_iff RJB _).mpr ⟨jsTrimR r, rfl⟩

theorem keepCore_rjb (w : List Char)
    (hjrc : containsSub pJRC (RJB ++ w) = false) : keepCore (RJB ++ w) = true := by
  have h1 : startsWithL pCHOOSE (RJB ++ w) = false := by
    rw [pCHOOSE, RJB, List.cons_append]
    exact startsWithL_false_head _ _ _ _ (by decide)
  have h2 : startsWithL pCOMPANY (RJB ++ w) = false := by
    rw [pCOMPANY, RJB, List.cons_append]
    exact startsWithL_false_head _ _ _ _ (by decide)
  have h3 : startsWithL pROLE (RJB ++ w) = false := by
    rw [pROLE, RJB, List.cons_append, List.cons_append, startsWithL_cons_same]
    exact startsWithL_false_head _ _ _ _ (by decide)
  have h4 : RJB ++ w ≠ pJRC := by
    rw [RJB, pJRC, List.cons_append]
    intro he
    injection he with he1 _
    exact absurd he1 (by decide)
  have h5 : RJB ++ w ≠ pBYE := by
    rw [RJB, pBYE, List.cons_append]
    intro he
    injection he with he1 _
    exact absurd he1 (by decide)
  have h6 : isEqRun (RJB ++ w) = false := by
    rw [RJB, List.cons_append]
    exact isEqRun_cons_false _ _ (by decide)
  simp [keepCore, h1, h2, h3, h4, h5, h6, hjrc]

theorem keepCore_parts (s : List Char) (h : keepCore s = true) :
    startsWithL pCHOOSE s = false ∧ startsWithL pCOMPANY s = false ∧
    startsWithL pROLE s = false ∧ s ≠ pJRC ∧ containsSub pJRC s = false ∧
    s ≠ pBYE ∧ isEqRun s = false := by
  simp only [keepCore, Bool.and_eq_true, Bool.not_eq_true', decide_eq_false_iff_not] at h
  obtain ⟨⟨⟨⟨⟨⟨h1, h2⟩, h3⟩, h4⟩, h5⟩, h6⟩, h7⟩ := h
  exact ⟨h1, h2, h3, h4, h5, h6, h7⟩

theorem keepLine_of_suffix_rjb (h l₀ : List Char) (hsw : startsWithL RJB h = true)
    (hsuf : h <:+ l₀) (hkeep : keepLine l₀ = true) : keepLine h = true := by
  obtain ⟨r, hr⟩ := (startsWithL_iff RJB h).mp hsw
  have hLh : jsTrimL h = h := by
    rw [hr, jsTrimL_append, if_neg (by rw [show jsTrimL RJB = RJB from rfl]; decide),
      show jsTrimL RJB = RJB from rfl]
  have hjh : ∃ w, jsTrim h = RJB ++ w := by
    unfold jsTrim
    rw [hLh, hr, jsTrimR_append]
    by_cases hv : jsTrimR r = []
    · rw [if_pos hv]
      exact ⟨[], by rw [show jsTrimR RJB = RJB from by decide]; simp⟩
    · rw [if_neg hv]
      exact ⟨jsTrimR r, rfl⟩
  obtain ⟨w, hw⟩ := hjh
  -- no occurrence of the banner inside the trimmed head line
  have hl₀jrc : containsSub pJRC (jsTrim l₀) = false :=
    (keepCore_parts (jsTrim l₀) hkeep).2.2.2.2.1
  have hl₀jrc2 : containsSub pJRC l₀ = false := by
    by_contra hcc
    rw [Bool.not_eq_false] at hcc
    rw [containsSub_jsTrim_of_trimmed pJRC l₀ (by decide) (by decide) (by decide) hcc]
      at hl₀jrc
    cases hl₀jrc
  have hhjrc : containsSub pJRC (jsTrim h) = false := by
    by_contra hcc
    rw [Bool.not_eq_false] at hcc
    obtain ⟨a, ha⟩ := hsuf
    obtain ⟨q, hq⟩ := jsTrimR_prefix_decomp (jsTrimL h)
    rw [hLh] at hq
    have hjt : jsTrim h = jsTrimR h := by unfold jsTrim; rw [hLh]
    have : containsSub pJRC l₀ = true := by
      rw [← ha, hq, ← hjt]
      exact containsSub_of_suffix_part a (jsTrim h) q pJRC hcc
    rw [this] at hl₀jrc2
    cases hl₀jrc2
  rw [keepLine, hw]
  rw [hw] at hhjrc
  exact keepCore_rjb w hhjrc

end UI

namespace UI

theorem keepLine_congr (l l2 : List Char) (h : jsTrim l = jsTrim l2) :
    keepLine l = keepLine l2 := by
  unfold keepLine
  rw [h]

theorem allKept_jsTrim (y : List Char) (hA : allKept y) : allKept (jsTrim y) := by
  intro l hl
  obtain ⟨l2, hl2, he⟩ := lines_jsTrim y l hl
  rw [keepLine_congr l l2 he]
  exact hA l2 hl2

theorem mem_of_drop (x : List Char) (i : Nat) (c : Char) (h : c ∈ x.drop i) : c ∈ x := by
  induction i generalizing x with
  | zero => exact h
  | succ n ih =>
    cases x with
    | nil => simp at h
    | cons a as => exact List.mem_cons_of_mem a (ih as (by simpa using h))

theorem allKept_drop (x : List Char) (i : Nat) (hA : allKept x)
    (hsw : startsWithL RJB (x.drop i) = true) : allKept (x.drop i) := by
  obtain ⟨h, t, he, ⟨l₀, hl₀, hsuf⟩, htail⟩ := splitNl_drop i x
  intro l hl
  rw [he] at hl
  rcases List.mem_cons.mp hl with hl | hl
  · subst hl
    have hjoin : x.drop i = joinNl (l :: t) := by rw [← joinNl_splitNl (x.drop i), he]
    have hswh : startsWithL RJB l = true := by
      cases t with
      | nil =>
        rw [hjoin] at hsw
        simpa [joinNl] using hsw
      | cons b bs =>
        rw [hjoin, joinNl_cons l (b :: bs) (by simp)] at hsw
        exact startsWithL_append_nl RJB (by decide) l _ hsw
    exact keepLine_of_suffix_rjb l l₀ hswh hsuf (hA l₀ hl₀)
  · obtain ⟨pre, hpre⟩ := htail
    have : l ∈ (splitNl x).tail := by
      rw [← hpre]
      exact List.mem_append_right pre hl
    exact hA l (List.mem_of_mem_tail this)

theorem stripCliNoise_eq (s : List Char) (h : s.isEmpty = false) :
    stripCliNoise s =
      match idxOfSub RJB (jsTrim (joinNl ((splitNl (replCRLF s)).filter keepLine))) with
      | some i =>
          jsTrim ((jsTrim (joinNl ((splitNl (replCRLF s)).filter keepLine))).drop i)
      | none => jsTrim (joinNl ((splitNl (replCRLF s)).filter keepLine)) := by
  simp only [stripCliNoise, h, Bool.false_eq_true, if_false]

theorem keepLine_nil : keepLine [] = true := by decide

theorem allKept_base (s : List Char) :
    allKept (jsTrim (joinNl ((splitNl (replCRLF s)).filter keepLine))) := by
  apply allKept_jsTrim
  by_cases hne : (splitNl (replCRLF s)).filter keepLine = []
  · rw [hne]
    intro l hl
    simp only [joinNl, splitNl, List.mem_singleton] at hl
    subst hl
    exact keepLine_nil
  · have hnl : ∀ l2 ∈ (splitNl (replCRLF s)).filter keepLine, '\n' ∉ l2 := fun l2 hl2 =>
      noNl_of_mem_splitNl (replCRLF s) l2 (List.mem_of_mem_filter hl2)
    intro l hl
    rw [splitNl_joinNl _ hnl hne] at hl
    exact List.of_mem_filter hl

theorem stripCliNoise_facts (s : List Char) :
    allKept (stripCliNoise s) ∧ jsTrim (stripCliNoise s) = stripCliNoise s ∧
      (idxOfSub RJB (stripCliNoise s) = none ∨
        startsWithL RJB (stripCliNoise s) = true) := by
  by_cases hs : s.isEmpty = true
  · have hnil : stripCliNoise s = [] := by
      unfold stripCliNoise
      rw [if_pos hs]
    rw [hnil]
    refine ⟨?_, rfl, Or.inl rfl⟩
    intro l hl
    simp only [splitNl, List.mem_singleton] at hl
    subst hl
    exact keepLine_nil
  · have hs' : s.isEmpty = false := by revert hs; cases s.isEmpty <;> simp
    rw [stripCliNoise_eq s hs']
    have hKout := allKept_base s
    cases hidx : idxOfSub RJB (jsTrim (joinNl ((splitNl (replCRLF s)).filter keepLine))) with
    | none => exact ⟨hKout, jsTrim_idem _, Or.inl hidx⟩
    | some i =>
      have hsw := idxOfSub_some RJB _ i hidx
      exact ⟨allKept_jsTrim _ (allKept_drop _ i hKout hsw), jsTrim_idem _,
        Or.inr (startsWithL_RJB_jsTrim _ hsw)⟩

theorem mem_stripCliNoise (s : List Char) :
    ∀ c ∈ stripCliNoise s, c ∈ s ∨ c = '\n' := by
  by_cases hs : s.isEmpty = true
  · have hnil : stripCliNoise s = [] := by
      unfold stripCliNoise
      rw [if_pos hs]
    rw [hnil]
    intro c hc
    cases hc
  · have hs' : s.isEmpty = false := by revert hs; cases s.isEmpty <;> simp
    rw [stripCliNoise_eq s hs']
    have base : ∀ c ∈ jsTrim (joinNl ((splitNl (replCRLF s)).filter keepLine)),
        c ∈ s ∨ c = '\n' := by
      intro c hc
      have hc2 := mem_jsTrim _ c hc
      rcases mem_joinNl _ c hc2 with h | ⟨l, hl, hcl⟩
      · exact Or.inr h
      · have hl2 := List.mem_of_mem_filter hl
        have hc3 := mem_of_mem_splitNl (replCRLF s) l hl2 c hcl
        exact mem_replCRLF s c hc3
    cases hidx : idxOfSub RJB (jsTrim (joinNl ((splitNl (replCRLF s)).filter keepLine))) with
    | none => exact base
    | some i =>
      intro c hc
      exact base c (mem_of_drop _ i c (mem_jsTrim _ c hc))

theorem stripCliNoise_fixed (t : List Char) (hcr : '\r' ∉ t) (hA : allKept t)
    (htr : jsTrim t = t)
    (hidx : idxOfSub RJB t = none ∨ startsWithL RJB t = true) :
    stripCliNoise t = t := by
  by_cases ht : t.isEmpty = true
  · rw [List.isEmpty_iff.mp ht]
    rfl
  · have ht' : t.isEmpty = false := by revert ht; cases t.isEmpty <;> simp
    rw [stripCliNoise_eq t ht', replCRLF_noCR t hcr,
      List.filter_eq_self.mpr hA, joinNl_splitNl, htr]
    rcases hidx with hnone | hsw
    · rw [hnone]
    · rw [idxOfSub_zero _ _ hsw]
      show jsTrim (t.drop 0) = t
      rw [List.drop_zero, htr]

end UI

namespace UI

/-- C8: round-trip of linkifyText — for every input string, concatenating in
order the parts it returns, each plain-string part as-is and each link
part's label (not its href), yields exactly the original string. -/
theorem c8_linkifyText_roundtrip (s : List Char) :
    renderLabels (linkifyText s) = s := by
  unfold linkifyText
  rw [linkifyGo_render]
  simp

/-- C9 counterexample: stripCliNoise is not idempotent as claimed — on the
input "a CR CR LF b" the first application yields "a CR LF b" and the second
collapses the surviving CR LF pair, so applying it twice differs from
applying it once. -/
theorem c9_not_idempotent_counterexample :
    ¬ (stripCliNoise (stripCliNoise ['a', '\r', '\r', '\n', 'b']) =
       stripCliNoise ['a', '\r', '\r', '\n', 'b']) := by decide

/-- C9 amended: stripCliNoise is idempotent on every input string that
contains no carriage-return character; the counterexample forces exactly
this carve-out, since only a CR surviving the single CRLF-replacement pass
can change on a second application. -/
theorem c9_stripCliNoise_idempotent_noCR (s : List Char) (h : '\r' ∉ s) :
    stripCliNoise (stripCliNoise s) = stripCliNoise s := by
  obtain ⟨hA, htr, hidx⟩ := stripCliNoise_facts s
  have hcr : '\r' ∉ stripCliNoise s := by
    intro hc
    rcases mem_stripCliNoise s '\r' hc with h2 | h2
    · exact h h2
    · exact absurd h2 (by decide)
  exact stripCliNoise_fixed (stripCliNoise s) hcr hA htr hidx

/-- C9 witness: the amended idempotence applied at a concrete CR-free
input. -/
theorem c9_stripCliNoise_idempotent_noCR_witness :
    '\r' ∉ ['h', 'i', '\n', 'x'] ∧
      stripCliNoise (stripCliNoise ['h', 'i', '\n', 'x']) =
        stripCliNoise ['h', 'i', '\n', 'x'] :=
  ⟨by decide, c9_stripCliNoise_idempotent_noCR ['h', 'i', '\n', 'x'] (by decide)⟩

/-- C10: postcondition of stripCliNoise — for every input, no line of the
output, after trimming, starts with "Choose mode:", "Company:" or "Role:",
equals "Bye 👋", contains "JOB RESEARCH COMPLETE", or is a nonempty run of
'=' characters; and the output carries no leading or trailing whitespace
(it is fixed by trimming). -/
theorem c10_stripCliNoise_postcondition (s : List Char) :
    (∀ l ∈ splitNl (stripCliNoise s),
      startsWithL pCHOOSE (jsTrim l) = false ∧
      startsWithL pCOMPANY (jsTrim l) = false ∧
      startsWithL pROLE (jsTrim l) = false ∧
      jsTrim l ≠ pBYE ∧
      containsSub pJRC (jsTrim l) = false ∧
      isEqRun (jsTrim l) = false) ∧
    jsTrim (stripCliNoise s) = stripCliNoise s := by
  obtain ⟨hA, htr, _⟩ := stripCliNoise_facts s
  refine ⟨?_, htr⟩
  intro l hl
  obtain ⟨h1, h2, h3, h4, h5, h6, h7⟩ := keepCore_parts (jsTrim l) (hA l hl)
  exact ⟨h1, h2, h3, h6, h5, h7⟩

/-- C10 witness: the postcondition applied at a concrete input whose output
is the single line "ok". -/
theorem c10_stripCliNoise_postcondition_witness :
    (startsWithL pCHOOSE (jsTrim ['o', 'k']) = false ∧
     startsWithL pCOMPANY (jsTrim ['o', 'k']) = false ∧
     startsWithL pROLE (jsTrim ['o', 'k']) = false ∧
     jsTrim ['o', 'k'] ≠ pBYE ∧
     containsSub pJRC (jsTrim ['o', 'k']) = false ∧
     isEqRun (jsTrim ['o', 'k']) = false) ∧
    jsTrim (stripCliNoise ['=', '=', '\n', 'o', 'k']) =
      stripCliNoise ['=', '=', '\n', 'o', 'k'] :=
  ⟨(c10_stripCliNoise_postcondition ['=', '=', '\n', 'o', 'k']).1 ['o', 'k'] (by decide),
   (c10_stripCliNoise_postcondition ['=', '=', '\n', 'o', 'k']).2⟩

end UI

namespace Pipeline

theorem record_self_none (L : Ledger) (k : DedupKey) (mid : Nat) (eid : Option Nat) (t : Nat)
    (h : L k = none) :
    record L k mid eid t k = some { messageIds := [mid], eventId := eid, origTime := t } := by
  simp [record, h]

theorem record_self_some (L : Ledger) (k : DedupKey) (mid : Nat) (eid : Option Nat) (t : Nat)
    (e : LedgerEntry) (h : L k = some e) :
    record L k mid eid t k =
      some { messageIds := mid :: e.messageIds,
             eventId := match e.eventId with | some v => some v | none => eid,
             origTime := e.origTime } := by
  simp [record, h]

theorem record_other (L : Ledger) (k k' : DedupKey) (mid : Nat) (eid : Option Nat) (t : Nat)
    (h : k' ≠ k) : record L k mid eid t k' = L k' := by
  simp [record, h]

theorem ledgerLe_refl (L : Ledger) : ledgerLe L L :=
  fun _ e he => ⟨e, he, rfl, fun _ hv => hv⟩

theorem ledgerLe_trans (L₁ L₂ L₃ : Ledger) (h12 : ledgerLe L₁ L₂) (h23 : ledgerLe L₂ L₃) :
    ledgerLe L₁ L₃ := by
  intro k e he
  obtain ⟨e2, he2, ho2, hv2⟩ := h12 k e he
  obtain ⟨e3, he3, ho3, hv3⟩ := h23 k e2 he2
  exact ⟨e3, he3, ho3.trans ho2, fun v hv => hv3 v (hv2 v hv)⟩

theorem record_le (L : Ledger) (k : DedupKey) (mid : Nat) (eid : Option Nat) (t : Nat) :
    ledgerLe L (record L k mid eid t) := by
  intro k' e he
  by_cases hk : k' = k
  · subst hk
    rw [record_self_some L k' mid eid t e he]
    refine ⟨_, rfl, rfl, ?_⟩
    intro v hv
    simp [hv]
  · rw [record_other L k k' mid eid t hk]
    exact ⟨e, he, rfl, fun _ hv => hv⟩

theorem plan_malformed (cfg : Config) (env : Env) (dry : Bool) (st : RunState)
    (m : RawMessage) (hd : env.decodeOk m.msgId = false) :
    planMessage cfg env dry st m =
      (⟨m.msgId, none, none, none, .Skip malformedReason⟩, st) := by
  unfold planMessage
  rw [if_pos hd]

theorem plan_notInterview (cfg : Config) (env : Env) (dry : Bool) (st : RunState)
    (m : RawMessage) (hd : env.decodeOk m.msgId = true)
    (hc : classify cfg (env.capOk m.msgId) m = .NotInterview) :
    planMessage cfg env dry st m =
      (⟨m.msgId, some .NotInterview, none, none, .Skip notInterviewReason⟩, st) := by
  unfold planMessage
  rw [if_neg (by simp [hd]), hc]

theorem plan_noTime (cfg : Config) (env : Env) (dry : Bool) (st : RunState)
    (m : RawMessage) (stg : Stage) (conf : Nat) (hd : env.decodeOk m.msgId = true)
    (hc : classify cfg (env.capOk m.msgId) m = .Interview stg conf)
    (he : extractTime m.received m.timeCandidates = none) :
    planMessage cfg env dry st m =
      (⟨m.msgId, some (.Interview stg conf), none, none, .Skip noTimeReason⟩, st) := by
  unfold planMessage
  rw [if_neg (by simp [hd]), hc, he]

theorem plan_create (cfg : Config) (env : Env) (dry : Bool) (st : RunState)
    (m : RawMessage) (stg : Stage) (conf : Nat) (et : ExtractedTime)
    (hd : env.decodeOk m.msgId = true)
    (hc : classify cfg (env.capOk m.msgId) m = .Interview stg conf)
    (he : extractTime m.received m.timeCandidates = some et)
    (hl : st.ledger (dedupKey cfg m stg et.instant) = none)
    (hs : (dry || env.sinkOk m.msgId) = true) :
    planMessage cfg env dry st m =
      (⟨m.msgId, some (.Interview stg conf), some et,
        some (dedupKey cfg m stg et.instant), .CreateEvent⟩,
       ⟨record st.ledger (dedupKey cfg m stg et.instant) m.msgId
          (some st.nextEventId) et.instant, st.nextEventId + 1⟩) := by
  unfold planMessage
  rw [if_neg (by simp [hd]), hc, he]
  dsimp only
  rw [show lookup st.ledger (dedupKey cfg m stg et.instant) = none from hl]
  dsimp only
  rw [if_pos hs]

theorem plan_create_fail (cfg : Config) (env : Env) (dry : Bool) (st : RunState)
    (m : RawMessage) (stg : Stage) (conf : Nat) (et : ExtractedTime)
    (hd : env.decodeOk m.msgId = true)
    (hc : classify cfg (env.capOk m.msgId) m = .Interview stg conf)
    (he : extractTime m.received m.timeCandidates = some et)
    (hl : st.ledger (dedupKey cfg m stg et.instant) = none)
    (hs : (dry || env.sinkOk m.msgId) = false) :
    planMessage cfg env dry st m =
      (⟨m.msgId, some (.Interview stg conf), some et,
        some (dedupKey cfg m stg et.instant), .Skip syncFailedReason⟩, st) := by
  unfold planMessage
  rw [if_neg (by simp [hd]), hc, he]
  dsimp only
  rw [show lookup st.ledger (dedupKey cfg m stg et.instant) = none from hl]
  dsimp only
  rw [if_neg (by simp [hs])]

theorem plan_dup_branch (cfg : Config) (env : Env) (dry : Bool) (st : RunState)
    (m : RawMessage) (stg : Stage) (conf : Nat) (et : ExtractedTime) (e : LedgerEntry)
    (hd : env.decodeOk m.msgId = true)
    (hc : classify cfg (env.capOk m.msgId) m = .Interview stg conf)
    (he : extractTime m.received m.timeCandidates = some et)
    (hl : st.ledger (dedupKey cfg m stg et.instant) = some e)
    (hw : sameWindow cfg et.instant e.origTime = true) :
    planMessage cfg env dry st m =
      (⟨m.msgId, some (.Interview stg conf), some et,
        some (dedupKey cfg m stg et.instant), .Skip dupReason⟩,
       ⟨record st.ledger (dedupKey cfg m stg et.instant) m.msgId none et.instant,
        st.nextEventId⟩) := by
  unfold planMessage
  rw [if_neg (by simp [hd]), hc, he]
  dsimp only
  rw [show lookup st.ledger (dedupKey cfg m stg et.instant) = some e from hl]
  dsimp only
  rw [if_pos hw]

theorem plan_update (cfg : Config) (env : Env) (dry : Bool) (st : RunState)
    (m : RawMessage) (stg : Stage) (conf : Nat) (et : ExtractedTime) (e : LedgerEntry)
    (hd : env.decodeOk m.msgId = true)
    (hc : classify cfg (env.capOk m.msgId) m = .Interview stg conf)
    (he : extractTime m.received m.timeCandidates = some et)
    (hl : st.ledger (dedupKey cfg m stg et.instant) = some e)
    (hw : sameWindow cfg et.instant e.origTime = false)
    (hs : (dry || env.sinkOk m.msgId) = true) :
    planMessage cfg env dry st m =
      (⟨m.msgId, some (.Interview stg conf), some et,
        some (dedupKey cfg m stg et.instant), .UpdateEvent⟩,
       ⟨record st.ledger (dedupKey cfg m stg et.instant) m.msgId none et.instant,
        st.nextEventId⟩) := by
  unfold planMessage
  rw [if_neg (by simp [hd]), hc, he]
  dsimp only
  rw [show lookup st.ledger (dedupKey cfg m stg et.instant) = some e from hl]
  dsimp only
  rw [if_neg (by simp [hw]), if_pos hs]

theorem plan_update_fail (cfg : Config) (env : Env) (dry : Bool) (st : RunState)
    (m : RawMessage) (stg : Stage) (conf : Nat) (et : ExtractedTime) (e : LedgerEntry)
    (hd : env.decodeOk m.msgId = true)
    (hc : classify cfg (env.capOk m.msgId) m = .Interview stg conf)
    (he : extractTime m.received m.timeCandidates = some et)
    (hl : st.ledger (dedupKey cfg m stg et.instant) = some e)
    (hw : sameWindow cfg et.instant e.origTime = false)
    (hs : (dry || env.sinkOk m.msgId) = false) :
    planMessage cfg env dry st m =
      (⟨m.msgId, some (.Interview stg conf), some et,
        some (dedupKey cfg m stg et.instant), .Skip syncFailedReason⟩, st) := by
  unfold planMessage
  rw [if_neg (by simp [hd]), hc, he]
  dsimp only
  rw [show lookup st.ledger (dedupKey cfg m stg et.instant) = some e from hl]
  dsimp only
  rw [if_neg (by simp [hw]), if_neg (by simp [hs])]

theorem runBatch_nil (cfg : Config) (env : Env) (dry : Bool) (st : RunState) :
    runBatch cfg env dry st [] = ([], st) := rfl

theorem runBatch_cons (cfg : Config) (env : Env) (dry : Bool) (st : RunState)
    (m : RawMessage) (ms : List RawMessage) :
    runBatch cfg env dry st (m :: ms) =
      ((planMessage cfg env dry st m).1 ::
        (runBatch cfg env dry (planMessage cfg env dry st m).2 ms).1,
       (runBatch cfg env dry (planMessage cfg env dry st m).2 ms).2) := rfl

end Pipeline

namespace Pipeline

theorem plan_state_cases (cfg : Config) (env : Env) (dry : Bool) (st : RunState)
    (m : RawMessage) :
    (planMessage cfg env dry st m).2.ledger = st.ledger ∨
    ∃ k mid eid t, (planMessage cfg env dry st m).2.ledger = record st.ledger k mid eid t := by
  cases hdec : env.decodeOk m.msgId with
  | false => rw [plan_malformed cfg env dry st m hdec]; exact Or.inl rfl
  | true =>
    cases hcls : classify cfg (env.capOk m.msgId) m with
    | NotInterview => rw [plan_notInterview cfg env dry st m hdec hcls]; exact Or.inl rfl
    | Interview stg conf =>
      cases hext : extractTime m.received m.timeCandidates with
      | none => rw [plan_noTime cfg env dry st m stg conf hdec hcls hext]; exact Or.inl rfl
      | some et =>
        cases hlk : st.ledger (dedupKey cfg m stg et.instant) with
        | none =>
          cases hb : (dry || env.sinkOk m.msgId) with
          | false =>
            rw [plan_create_fail cfg env dry st m stg conf et hdec hcls hext hlk hb]
            exact Or.inl rfl
          | true =>
            rw [plan_create cfg env dry st m stg conf et hdec hcls hext hlk hb]
            exact Or.inr ⟨_, _, _, _, rfl⟩
        | some e =>
          cases hw : sameWindow cfg et.instant e.origTime with
          | true =>
            rw [plan_dup_branch cfg env dry st m stg conf et e hdec hcls hext hlk hw]
            exact Or.inr ⟨_, _, _, _, rfl⟩
          | false =>
            cases hb : (dry || env.sinkOk m.msgId) with
            | false =>
              rw [plan_update_fail cfg env dry st m stg conf et e hdec hcls hext hlk hw hb]
              exact Or.inl rfl
            | true =>
              rw [plan_update cfg env dry st m stg conf et e hdec hcls hext hlk hw hb]
              exact Or.inr ⟨_, _, _, _, rfl⟩

theorem plan_le (cfg : Config) (env : Env) (dry : Bool) (st : RunState) (m : RawMessage) :
    ledgerLe st.ledger (planMessage cfg env dry st m).2.ledger := by
  rcases plan_state_cases cfg env dry st m with h | ⟨k, mid, eid, t, h⟩
  · rw [h]; exact ledgerLe_refl _
  · rw [h]; exact record_le _ _ _ _ _

theorem runBatch_le (cfg : Config) (env : Env) (dry : Bool) :
    ∀ (ms : List RawMessage) (st : RunState),
      ledgerLe st.ledger (runBatch cfg env dry st ms).2.ledger := by
  intro ms
  induction ms with
  | nil => intro st; rw [runBatch_nil]; exact ledgerLe_refl _
  | cons m ms ih =>
    intro st
    rw [runBatch_cons]
    exact ledgerLe_trans _ _ _ (plan_le cfg env dry st m) (ih _)

theorem plan_msgId (cfg : Config) (env : Env) (dry : Bool) (st : RunState) (m : RawMessage) :
    (planMessage cfg env dry st m).1.msgId = m.msgId := by
  cases hdec : env.decodeOk m.msgId with
  | false => rw [plan_malformed cfg env dry st m hdec]
  | true =>
    cases hcls : classify cfg (env.capOk m.msgId) m with
    | NotInterview => rw [plan_notInterview cfg env dry st m hdec hcls]
    | Interview stg conf =>
      cases hext : extractTime m.received m.timeCandidates with
      | none => rw [plan_noTime cfg env dry st m stg conf hdec hcls hext]
      | some et =>
        cases hlk : st.ledger (dedupKey cfg m stg et.instant) with
        | none =>
          cases hb : (dry || env.sinkOk m.msgId) with
          | false => rw [plan_create_fail cfg env dry st m stg conf et hdec hcls hext hlk hb]
          | true => rw [plan_create cfg env dry st m stg conf et hdec hcls hext hlk hb]
        | some e =>
          cases hw : sameWindow cfg et.instant e.origTime with
          | true => rw [plan_dup_branch cfg env dry st m stg conf et e hdec hcls hext hlk hw]
          | false =>
            cases hb : (dry || env.sinkOk m.msgId) with
            | false =>
              rw [plan_update_fail cfg env dry st m stg conf et e hdec hcls hext hlk hw hb]
            | true => rw [plan_update cfg env dry st m stg conf et e hdec hcls hext hlk hw hb]

theorem readyInfo_some_elim (cfg : Config) (env : Env) (m : RawMessage) (k : DedupKey)
    (t : Nat) (h : readyInfo cfg env m = some (k, t)) :
    env.decodeOk m.msgId = true ∧ ∃ stg conf et,
      classify cfg (env.capOk m.msgId) m = .Interview stg conf ∧
      extractTime m.received m.timeCandidates = some et ∧
      et.instant = t ∧ dedupKey cfg m stg et.instant = k := by
  unfold readyInfo at h
  cases hdec : env.decodeOk m.msgId with
  | false => rw [if_pos hdec] at h; cases h
  | true =>
    rw [if_neg (by simp [hdec])] at h
    cases hcls : classify cfg (env.capOk m.msgId) m with
    | NotInterview => rw [hcls] at h; cases h
    | Interview stg conf =>
      rw [hcls] at h
      dsimp only at h
      cases hext : extractTime m.received m.timeCandidates with
      | none => rw [hext] at h; cases h
      | some et =>
        rw [hext] at h
        dsimp only at h
        injection h with h2
        cases h2
        exact ⟨rfl, stg, conf, et, rfl, rfl, rfl, rfl⟩

theorem readyInfo_intro (cfg : Config) (env : Env) (m : RawMessage) (stg : Stage)
    (conf : Nat) (et : ExtractedTime) (hdec : env.decodeOk m.msgId = true)
    (hcls : classify cfg (env.capOk m.msgId) m = .Interview stg conf)
    (hext : extractTime m.received m.timeCandidates = some et) :
    readyInfo cfg env m = some (dedupKey cfg m stg et.instant, et.instant) := by
  unfold readyInfo
  rw [if_neg (by simp [hdec]), hcls]
  dsimp only
  rw [hext]

theorem plan_create_elim (cfg : Config) (env : Env) (st : RunState) (m : RawMessage)
    (hd : (planMessage cfg env false st m).1.decision = Decision.CreateEvent) :
    ∃ k t, readyInfo cfg env m = some (k, t) ∧ st.ledger k = none ∧
      env.sinkOk m.msgId = true ∧
      (planMessage cfg env false st m).1.key = some k ∧
      (planMessage cfg env false st m).2.ledger k =
        some { messageIds := [m.msgId], eventId := some st.nextEventId, origTime := t } := by
  cases hdec : env.decodeOk m.msgId with
  | false => rw [plan_malformed cfg env false st m hdec] at hd; simp at hd
  | true =>
    cases hcls : classify cfg (env.capOk m.msgId) m with
    | NotInterview => rw [plan_notInterview cfg env false st m hdec hcls] at hd; simp at hd
    | Interview stg conf =>
      cases hext : extractTime m.received m.timeCandidates with
      | none => rw [plan_noTime cfg env false st m stg conf hdec hcls hext] at hd; simp at hd
      | some et =>
        cases hlk : st.ledger (dedupKey cfg m stg et.instant) with
        | none =>
          cases hsink : env.sinkOk m.msgId with
          | false =>
            rw [plan_create_fail cfg env false st m stg conf et hdec hcls hext hlk
              (by simp [hsink])] at hd
            simp at hd
          | true =>
            have hp := plan_create cfg env false st m stg conf et hdec hcls hext hlk
              (by simp [hsink])
            refine ⟨dedupKey cfg m stg et.instant, et.instant,
              readyInfo_intro cfg env m stg conf et hdec hcls hext, hlk, rfl, ?_, ?_⟩
            · rw [hp]
            · rw [hp]
              exact record_self_none _ _ _ _ _ hlk
        | some e =>
          cases hw : sameWindow cfg et.instant e.origTime with
          | true =>
            rw [plan_dup_branch cfg env false st m stg conf et e hdec hcls hext hlk hw] at hd
            simp at hd
          | false =>
            cases hsink : env.sinkOk m.msgId with
            | true =>
              rw [plan_update cfg env false st m stg conf et e hdec hcls hext hlk hw
                (by simp [hsink])] at hd
              simp at hd
            | false =>
              rw [plan_update_fail cfg env false st m stg conf et e hdec hcls hext hlk hw
                (by simp [hsink])] at hd
              simp at hd

end Pipeline

namespace Pipeline

theorem ledgerLe_isSome (L₁ L₂ : Ledger) (h : ledgerLe L₁ L₂) (k : DedupKey)
    (hs : (L₁ k).isSome) : (L₂ k).isSome := by
  rw [Option.isSome_iff_exists] at hs ⊢
  obtain ⟨e, he⟩ := hs
  obtain ⟨e2, he2, _, _⟩ := h k e he
  exact ⟨e2, he2⟩

theorem plan_dup_of_present (cfg : Config) (env : Env) (dry : Bool) (st : RunState)
    (m : RawMessage) (k : DedupKey) (t : Nat) (e : LedgerEntry)
    (hri : readyInfo cfg env m = some (k, t))
    (hl : st.ledger k = some e) (ho : e.origTime = t) :
    (planMessage cfg env dry st m).1.decision = .Skip dupReason ∧
    (planMessage cfg env dry st m).1.key = some k := by
  obtain ⟨hdec, stg, conf, et, hcls, hext, hti, hkey⟩ := readyInfo_some_elim cfg env m k t hri
  subst hkey
  subst hti
  have hw : sameWindow cfg et.instant e.origTime = true := by
    rw [ho]
    simp [sameWindow, natDist, Nat.sub_self]
  rw [plan_dup_branch cfg env dry st m stg conf et e hdec hcls hext hl hw]
  exact ⟨rfl, rfl⟩

theorem countCreates_nil (k : DedupKey) : countCreates k [] = 0 := rfl

theorem countCreates_cons (k : DedupKey) (d : SyncDecision) (ds : List SyncDecision) :
    countCreates k (d :: ds) =
      (if d.decision = .CreateEvent ∧ d.key = some k then 1 else 0) + countCreates k ds := by
  by_cases h : d.decision = .CreateEvent ∧ d.key = some k
  · simp [countCreates, List.filter_cons, h, Nat.add_comm]
  · simp [countCreates, List.filter_cons, h]

theorem countCreates_eq_zero (k : DedupKey) (ds : List SyncDecision)
    (h : ∀ d ∈ ds, ¬(d.decision = .CreateEvent ∧ d.key = some k)) :
    countCreates k ds = 0 := by
  induction ds with
  | nil => rfl
  | cons d ds ih =>
    rw [countCreates_cons, if_neg (h d (by simp))]
    simpa using ih (fun d2 hd2 => h d2 (List.mem_cons_of_mem d hd2))

theorem countCreates_append (k : DedupKey) (ds1 ds2 : List SyncDecision) :
    countCreates k (ds1 ++ ds2) = countCreates k ds1 + countCreates k ds2 := by
  simp [countCreates, List.filter_append]

theorem runBatch_no_create_of_present (cfg : Config) (env : Env) (k : DedupKey) :
    ∀ (ms : List RawMessage) (st : RunState), (st.ledger k).isSome →
      ∀ d ∈ (runBatch cfg env false st ms).1,
        ¬(d.decision = .CreateEvent ∧ d.key = some k) := by
  intro ms
  induction ms with
  | nil =>
    intro st _ d hd
    rw [runBatch_nil] at hd
    cases hd
  | cons m ms ih =>
    intro st hsome d hd
    rw [runBatch_cons] at hd
    rcases List.mem_cons.mp hd with hd | hd
    · subst hd
      rintro ⟨hc, hk⟩
      obtain ⟨k2, t2, hri, hnone, hsink, hkey, hpost⟩ := plan_create_elim cfg env st m hc
      rw [hk] at hkey
      injection hkey with hkk
      rw [← hkk] at hnone
      rw [hnone] at hsome
      simp at hsome
    · exact ih (planMessage cfg env false st m).2
        (ledgerLe_isSome _ _ (plan_le cfg env false st m) k hsome) d hd

theorem runBatch_count_le_one (cfg : Config) (env : Env) (k : DedupKey) :
    ∀ (ms : List RawMessage) (st : RunState),
      countCreates k (runBatch cfg env false st ms).1 ≤ 1 := by
  intro ms
  induction ms with
  | nil => intro st; rw [runBatch_nil, countCreates_nil]; exact Nat.zero_le 1
  | cons m ms ih =>
    intro st
    rw [runBatch_cons, countCreates_cons]
    by_cases h : (planMessage cfg env false st m).1.decision = .CreateEvent ∧
        (planMessage cfg env false st m).1.key = some k
    · rw [if_pos h]
      obtain ⟨k2, t2, hri, hnone, hsink, hkey, hpost⟩ := plan_create_elim cfg env st m h.1
      rw [h.2] at hkey
      injection hkey with hkk
      subst hkk
      have hz : countCreates k
          (runBatch cfg env false (planMessage cfg env false st m).2 ms).1 = 0 :=
        countCreates_eq_zero k _
          (runBatch_no_create_of_present cfg env k ms _ (by rw [hpost]; rfl))
      rw [hz]
    · rw [if_neg h]
      simpa using ih (planMessage cfg env false st m).2

theorem runBatch_safe (cfg : Config) (env : Env) :
    ∀ (ms : List RawMessage) (st : RunState), ∀ m ∈ ms, ∀ k t,
      readyInfo cfg env m = some (k, t) → env.sinkOk m.msgId = true →
      (((runBatch cfg env false st ms).2.ledger) k).isSome := by
  intro ms
  induction ms with
  | nil => intro st m hm; cases hm
  | cons m0 ms ih =>
    intro st m hm k t hri hsink
    rw [runBatch_cons]
    rcases List.mem_cons.mp hm with hm | hm
    · subst hm
      obtain ⟨hdec, stg, conf, et, hcls, hext, hti, hkey⟩ :=
        readyInfo_some_elim cfg env m k t hri
      subst hkey
      have hpres : ((planMessage cfg env false st m).2.ledger
          (dedupKey cfg m stg et.instant)).isSome := by
        cases hlk : st.ledger (dedupKey cfg m stg et.instant) with
        | none =>
          rw [plan_create cfg env false st m stg conf et hdec hcls hext hlk (by simp [hsink])]
          dsimp only
          rw [record_self_none _ _ _ _ _ hlk]
          rfl
        | some e =>
          exact ledgerLe_isSome _ _ (plan_le cfg env false st m) _ (by rw [hlk]; rfl)
      exact ledgerLe_isSome _ _ (runBatch_le cfg env false ms _) _ hpres
    · exact ih (planMessage cfg env false st m0).2 m hm k t hri hsink

theorem runBatch_no_create_of_safe (cfg : Config) (env : Env) (Lb : Ledger) :
    ∀ (ms : List RawMessage) (st : RunState),
      (∀ m ∈ ms, ∀ k t, readyInfo cfg env m = some (k, t) →
        env.sinkOk m.msgId = true → (Lb k).isSome) →
      (∀ k, (Lb k).isSome → (st.ledger k).isSome) →
      ∀ d ∈ (runBatch cfg env false st ms).1, d.decision ≠ Decision.CreateEvent := by
  intro ms
  induction ms with
  | nil =>
    intro st _ _ d hd
    rw [runBatch_nil] at hd
    cases hd
  | cons m ms ih =>
    intro st hH hLe d hd
    rw [runBatch_cons] at hd
    rcases List.mem_cons.mp hd with hd | hd
    · subst hd
      intro hc
      obtain ⟨k, t, hri, hnone, hsink, _, _⟩ := plan_create_elim cfg env st m hc
      have hsome := hLe k (hH m (by simp) k t hri hsink)
      rw [hnone] at hsome
      simp at hsome
    · refine ih (planMessage cfg env false st m).2
        (fun m2 hm2 => hH m2 (List.mem_cons_of_mem m hm2)) ?_ d hd
      intro k hk
      exact ledgerLe_isSome _ _ (plan_le cfg env false st m) k (hLe k hk)

theorem runBatch_zip_dup (cfg : Config) (env : Env) :
    ∀ (ms : List RawMessage) (st₁ st₂ : RunState),
      ledgerLe (runBatch cfg env false st₁ ms).2.ledger st₂.ledger →
      ∀ p ∈ ((runBatch cfg env false st₁ ms).1).zip ((runBatch cfg env false st₂ ms).1),
        p.1.decision = Decision.CreateEvent →
        p.2.decision = Decision.Skip dupReason ∧ p.2.key = p.1.key := by
  intro ms
  induction ms with
  | nil =>
    intro st₁ st₂ _ p hp
    rw [runBatch_nil, runBatch_nil] at hp
    cases hp
  | cons m ms ih =>
    intro st₁ st₂ hle p hp hc
    rw [runBatch_cons] at hle
    rw [runBatch_cons, runBatch_cons] at hp
    dsimp only at hp
    rw [List.zip_cons_cons] at hp
    rcases List.mem_cons.mp hp with hp | hp
    · subst hp
      dsimp only at hc ⊢
      obtain ⟨k, t, hri, hnone, hsink, hkey, hpost⟩ := plan_create_elim cfg env st₁ m hc
      have hchain : ledgerLe (planMessage cfg env false st₁ m).2.ledger st₂.ledger :=
        ledgerLe_trans _ _ _ (runBatch_le cfg env false ms _) hle
      obtain ⟨e2, he2, ho2, _⟩ := hchain k _ hpost
      have hdup := plan_dup_of_present cfg env false st₂ m k t e2 hri he2 (by rw [ho2])
      exact ⟨hdup.1, by rw [hdup.2, hkey]⟩
    · refine ih (planMessage cfg env false st₁ m).2 (planMessage cfg env false st₂ m).2
        ?_ p hp hc
      exact ledgerLe_trans _ _ _ hle (plan_le cfg env false st₂ m)

theorem runBatch_map_msgId (cfg : Config) (env : Env) (dry : Bool) :
    ∀ (ms : List RawMessage) (st : RunState),
      ((runBatch cfg env dry st ms).1).map SyncDecision.msgId =
        ms.map RawMessage.msgId := by
  intro ms
  induction ms with
  | nil => intro st; rw [runBatch_nil]; rfl
  | cons m ms ih =>
    intro st
    rw [runBatch_cons]
    simp [plan_msgId, ih]

theorem runBatch_create_recorded (cfg : Config) (env : Env) :
    ∀ (ms : List RawMessage) (st : RunState),
      ∀ d ∈ (runBatch cfg env false st ms).1, d.decision = Decision.CreateEvent →
        ∃ k, d.key = some k ∧ (((runBatch cfg env false st ms).2.ledger) k).isSome := by
  intro ms
  induction ms with
  | nil =>
    intro st d hd
    rw [runBatch_nil] at hd
    cases hd
  | cons m ms ih =>
    intro st d hd hc
    rw [runBatch_cons] at hd ⊢
    rcases List.mem_cons.mp hd with hd | hd
    · subst hd
      obtain ⟨k, t, hri, hnone, hsink, hkey, hpost⟩ := plan_create_elim cfg env st m hc
      refine ⟨k, hkey, ?_⟩
      exact ledgerLe_isSome _ _ (runBatch_le cfg env false ms _) _ (by rw [hpost]; rfl)
    · exact ih (planMessage cfg env false st m).2 d hd hc

theorem plan_dry_eq (cfg : Config) (env : Env) (st : RunState) (m : RawMessage)
    (hs : env.sinkOk m.msgId = true) :
    planMessage cfg env true st m = planMessage cfg env false st m := by
  unfold planMessage
  rw [hs]
  simp

theorem runBatch_dry_eq (cfg : Config) (env : Env)
    (hs : ∀ i, env.sinkOk i = true) :
    ∀ (ms : List RawMessage) (st : RunState),
      runBatch cfg env true st ms = runBatch cfg env false st ms := by
  intro ms
  induction ms with
  | nil => intro st; rfl
  | cons m ms ih =>
    intro st
    rw [runBatch_cons, runBatch_cons, plan_dry_eq cfg env st m (hs m.msgId), ih]

end Pipeline

namespace Pipeline

theorem processBatch_ok (cfg : Config) (env : Env) (msgs : List RawMessage) (dry : Bool)
    (L : Ledger) (ctr : Nat) (h : env.ledgerOk = true) :
    processBatch cfg env msgs dry L ctr =
      .ok ((runBatch cfg env dry ⟨L, ctr⟩ msgs).1,
           (if dry then L else (runBatch cfg env dry ⟨L, ctr⟩ msgs).2.ledger),
           (if dry then ctr else (runBatch cfg env dry ⟨L, ctr⟩ msgs).2.nextEventId),
           summarize (runBatch cfg env dry ⟨L, ctr⟩ msgs).1) := by
  unfold processBatch
  rw [if_neg (by simp [h])]

theorem processBatch_err (cfg : Config) (env : Env) (msgs : List RawMessage) (dry : Bool)
    (L : Ledger) (ctr : Nat) (h : env.ledgerOk = false) :
    processBatch cfg env msgs dry L ctr = .error .LedgerStorageFailure := by
  unfold processBatch
  rw [if_pos h]

theorem extractTime_none_of_past (received : Nat) (cands : List (List Char × Nat))
    (h : ∀ c ∈ cands, c.2 ≤ received) : extractTime received cands = none := by
  unfold extractTime
  rw [List.find?_eq_none.mpr]
  intro c hc
  simpa using Nat.not_lt.mpr (h c hc)

theorem extractTime_some_elim (received : Nat) :
    ∀ (cands : List (List Char × Nat)) (et : ExtractedTime),
      extractTime received cands = some et →
      received < et.instant ∧ ∃ pre c post, cands = pre ++ c :: post ∧
        (∀ c2 ∈ pre, ¬ received < c2.2) ∧ received < c.2 ∧ et = ⟨c.2, c.1⟩ := by
  intro cands
  induction cands with
  | nil => intro et h; simp [extractTime] at h
  | cons c cs ih =>
    intro et h
    unfold extractTime at h
    cases hp : decide (received < c.2) with
    | true =>
      have hf : List.find? (fun x => decide (received < x.2)) (c :: cs) = some c := by
        simp only [List.find?]
        rw [hp]
      rw [hf] at h
      dsimp only at h
      injection h with h2
      subst h2
      exact ⟨of_decide_eq_true hp, [], c, cs, rfl, by simp, of_decide_eq_true hp, rfl⟩
    | false =>
      have hf : List.find? (fun x => decide (received < x.2)) (c :: cs) =
          List.find? (fun x => decide (received < x.2)) cs := by
        simp only [List.find?]
        rw [hp]
      rw [hf] at h
      have h' : extractTime received cs = some et := by unfold extractTime; exact h
      obtain ⟨hlt, pre, c2, post, hcands, hpre, hc2, het⟩ := ih et h'
      refine ⟨hlt, c :: pre, c2, post, by rw [hcands, List.cons_append], ?_, hc2, het⟩
      intro x hx
      rcases List.mem_cons.mp hx with hx | hx
      · subst hx
        exact of_decide_eq_false hp
      · exact hpre x hx

theorem cue_classify (m : RawMessage) (s₀ : Stage) (hs₀ : hasStageCue (msgText m) s₀ = true) :
    ∃ stg conf, classifyDet m = .Interview stg conf ∧
      hasStageCue (msgText m) stg = true ∧
      ∀ s, hasStageCue (msgText m) s = true → stageRank s ≤ stageRank stg := by
  cases h4 : hasStageCue (msgText m) .OnsiteFinal <;>
  cases h3 : hasStageCue (msgText m) .Technical <;>
  cases h2 : hasStageCue (msgText m) .PhoneScreen <;>
  cases h1 : hasStageCue (msgText m) .Assessment <;>
  cases h0 : hasStageCue (msgText m) .RecruiterScheduling
  all_goals
    first
    | (exfalso; cases s₀ <;> simp_all; done)
    | exact ⟨Stage.OnsiteFinal, 80,
        by simp [classifyDet, cueStages, precedenceList, List.filter_cons, h4, h3, h2, h1, h0],
        h4, by intro s hs; cases s <;> simp_all [stageRank]⟩
    | exact ⟨Stage.Technical, 80,
        by simp [classifyDet, cueStages, precedenceList, List.filter_cons, h4, h3, h2, h1, h0],
        h3, by intro s hs; cases s <;> simp_all [stageRank]⟩
    | exact ⟨Stage.PhoneScreen, 80,
        by simp [classifyDet, cueStages, precedenceList, List.filter_cons, h4, h3, h2, h1, h0],
        h2, by intro s hs; cases s <;> simp_all [stageRank]⟩
    | exact ⟨Stage.Assessment, 80,
        by simp [classifyDet, cueStages, precedenceList, List.filter_cons, h4, h3, h2, h1, h0],
        h1, by intro s hs; cases s <;> simp_all [stageRank]⟩
    | exact ⟨Stage.RecruiterScheduling, 80,
        by simp [classifyDet, cueStages, precedenceList, List.filter_cons, h4, h3, h2, h1, h0],
        h0, by intro s hs; cases s <;> simp_all [stageRank]⟩

end Pipeline

namespace Pipeline

theorem processBatch_real (cfg : Config) (env : Env) (msgs : List RawMessage) (L : Ledger)
    (ctr : Nat) (h : env.ledgerOk = true) :
    processBatch cfg env msgs false L ctr =
      .ok ((runBatch cfg env false ⟨L, ctr⟩ msgs).1,
           (runBatch cfg env false ⟨L, ctr⟩ msgs).2.ledger,
           (runBatch cfg env false ⟨L, ctr⟩ msgs).2.nextEventId,
           summarize (runBatch cfg env false ⟨L, ctr⟩ msgs).1) := by
  rw [processBatch_ok cfg env msgs false L ctr h]
  simp

theorem processBatch_dry (cfg : Config) (env : Env) (msgs : List RawMessage) (L : Ledger)
    (ctr : Nat) (h : env.ledgerOk = true) :
    processBatch cfg env msgs true L ctr =
      .ok ((runBatch cfg env true ⟨L, ctr⟩ msgs).1, L, ctr,
           summarize (runBatch cfg env true ⟨L, ctr⟩ msgs).1) := by
  rw [processBatch_ok cfg env msgs true L ctr h]
  simp

/-- C1: once record(key, message_id, event_id) has set an event id for a
dedup key, no later sequence of record calls (on that key or any other)
changes or replaces it — the ledger keeps at most one external event id per
key for its lifetime. -/
theorem c1_ledger_eventId_stable :
    ∀ (ops : List (DedupKey × Nat × Option Nat × Nat)) (L : Ledger) (k : DedupKey)
      (e : LedgerEntry) (v : Nat),
      lookup L k = some e → e.eventId = some v →
      ∃ e2, lookup (applyRecords L ops) k = some e2 ∧ e2.eventId = some v := by
  intro ops
  induction ops with
  | nil => intro L k e v h1 h2; exact ⟨e, h1, h2⟩
  | cons op ops ih =>
    intro L k e v h1 h2
    obtain ⟨k2, mid, eid, t⟩ := op
    obtain ⟨e2, he2, _, hv2⟩ := record_le L k2 mid eid t k e h1
    exact ih (record L k2 mid eid t) k e2 v he2 (hv2 v h2)

/-- C1 witness: a key whose event id is set to 7 keeps event id 7 after two
further record calls on that key, one of them attempting a different id. -/
theorem c1_ledger_eventId_stable_witness :
    ∃ e2, lookup (applyRecords
        (record emptyLedger ([], Stage.Technical, 0) 1 (some 7) 3)
        [(([], Stage.Technical, 0), 9, some 99, 5), (([], Stage.Technical, 0), 10, none, 6)])
      ([], Stage.Technical, 0) = some e2 ∧ e2.eventId = some 7 :=
  c1_ledger_eventId_stable
    [(([], Stage.Technical, 0), 9, some 99, 5), (([], Stage.Technical, 0), 10, none, 6)]
    (record emptyLedger ([], Stage.Technical, 0) 1 (some 7) 3)
    ([], Stage.Technical, 0) { messageIds := [1], eventId := some 7, origTime := 3 } 7
    (by decide) (by decide)

/-- C2: idempotence of process_batch — running the batch twice for real on
the identical message set yields at most one CreateEvent per dedup key in
the first run, none at all in the second, hence exactly one across both
runs for any key that is created; and for every position where the first
run decided CreateEvent, the second run's decision for the same message is
Skip with the duplicate reason, against the same key. -/
theorem c2_processBatch_idempotent (cfg : Config) (env : Env) (msgs : List RawMessage)
    (L : Ledger) (ctr : Nat) (hled : env.ledgerOk = true) :
    ∃ ds1 L1 c1 r1 ds2 L2 c2 r2,
      processBatch cfg env msgs false L ctr = .ok (ds1, L1, c1, r1) ∧
      processBatch cfg env msgs false L1 c1 = .ok (ds2, L2, c2, r2) ∧
      (∀ k, countCreates k ds1 ≤ 1) ∧
      (∀ d ∈ ds2, d.decision ≠ Decision.CreateEvent) ∧
      (∀ k, countCreates k (ds1 ++ ds2) ≤ 1) ∧
      (∀ p ∈ ds1.zip ds2, p.1.decision = Decision.CreateEvent →
        p.2.decision = Decision.Skip dupReason ∧ p.2.key = p.1.key) := by
  have hnc : ∀ d ∈ (runBatch cfg env false (runBatch cfg env false ⟨L, ctr⟩ msgs).2 msgs).1,
      d.decision ≠ Decision.CreateEvent := by
    refine runBatch_no_create_of_safe cfg env
      ((runBatch cfg env false ⟨L, ctr⟩ msgs).2.ledger) msgs _ ?_ (fun k hk => hk)
    intro m hm k t hri hs
    exact runBatch_safe cfg env msgs ⟨L, ctr⟩ m hm k t hri hs
  refine ⟨(runBatch cfg env false ⟨L, ctr⟩ msgs).1,
    (runBatch cfg env false ⟨L, ctr⟩ msgs).2.ledger,
    (runBatch cfg env false ⟨L, ctr⟩ msgs).2.nextEventId,
    summarize (runBatch cfg env false ⟨L, ctr⟩ msgs).1,
    (runBatch cfg env false (runBatch cfg env false ⟨L, ctr⟩ msgs).2 msgs).1,
    (runBatch cfg env false (runBatch cfg env false ⟨L, ctr⟩ msgs).2 msgs).2.ledger,
    (runBatch cfg env false (runBatch cfg env false ⟨L, ctr⟩ msgs).2 msgs).2.nextEventId,
    summarize (runBatch cfg env false (runBatch cfg env false ⟨L, ctr⟩ msgs).2 msgs).1,
    processBatch_real cfg env msgs L ctr hled,
    processBatch_real cfg env msgs _ _ hled,
    fun k => runBatch_count_le_one cfg env k msgs ⟨L, ctr⟩,
    hnc, ?_, ?_⟩
  · intro k
    rw [countCreates_append,
      countCreates_eq_zero k _ (fun d hd hcon => (hnc d hd) hcon.1)]
    simpa using runBatch_count_le_one cfg env k msgs ⟨L, ctr⟩
  · exact runBatch_zip_dup cfg env msgs ⟨L, ctr⟩ (runBatch cfg env false ⟨L, ctr⟩ msgs).2
      (ledgerLe_refl _)

/-- C2 witness: the idempotence statement instantiated at a one-message
batch whose message classifies as an interview with a future time. -/
theorem c2_processBatch_idempotent_witness :
    ∃ ds1 L1 c1 r1 ds2 L2 c2 r2,
      processBatch ⟨"UTC".toList, 86400, none⟩
        ⟨fun _ => true, fun _ => true, fun _ => true, true⟩
        [⟨1, "hr@acme.com".toList, "phone screen".toList, "schedule a call".toList,
          100, [("tue".toList, 200)]⟩] false emptyLedger 0 = .ok (ds1, L1, c1, r1) ∧
      processBatch ⟨"UTC".toList, 86400, none⟩
        ⟨fun _ => true, fun _ => true, fun _ => true, true⟩
        [⟨1, "hr@acme.com".toList, "phone screen".toList, "schedule a call".toList,
          100, [("tue".toList, 200)]⟩] false L1 c1 = .ok (ds2, L2, c2, r2) ∧
      (∀ k, countCreates k ds1 ≤ 1) ∧
      (∀ d ∈ ds2, d.decision ≠ Decision.CreateEvent) ∧
      (∀ k, countCreates k (ds1 ++ ds2) ≤ 1) ∧
      (∀ p ∈ ds1.zip ds2, p.1.decision = Decision.CreateEvent →
        p.2.decision = Decision.Skip dupReason ∧ p.2.key = p.1.key) :=
  c2_processBatch_idempotent ⟨"UTC".toList, 86400, none⟩
    ⟨fun _ => true, fun _ => true, fun _ => true, true⟩
    [⟨1, "hr@acme.com".toList, "phone screen".toList, "schedule a call".toList,
      100, [("tue".toList, 200)]⟩] emptyLedger 0 rfl

/-- C3: dry-run equivalence — with a healthy sink, a dry run and a real run
over the same batch produce the identical sequence of SyncDecision records;
the dry run's persisted ledger and event counter equal their values before
the run, and the real run has recorded a key for every CreateEvent
decision. -/
theorem c3_dry_run_equivalence (cfg : Config) (env : Env) (msgs : List RawMessage)
    (L : Ledger) (ctr : Nat) (hled : env.ledgerOk = true)
    (hsink : ∀ i, env.sinkOk i = true) :
    ∃ ds LF cF rpt,
      processBatch cfg env msgs true L ctr = .ok (ds, L, ctr, rpt) ∧
      processBatch cfg env msgs false L ctr = .ok (ds, LF, cF, rpt) ∧
      ∀ d ∈ ds, d.decision = Decision.CreateEvent →
        ∃ k, d.key = some k ∧ (LF k).isSome := by
  refine ⟨(runBatch cfg env false ⟨L, ctr⟩ msgs).1,
    (runBatch cfg env false ⟨L, ctr⟩ msgs).2.ledger,
    (runBatch cfg env false ⟨L, ctr⟩ msgs).2.nextEventId,
    summarize (runBatch cfg env false ⟨L, ctr⟩ msgs).1, ?_,
    processBatch_real cfg env msgs L ctr hled, ?_⟩
  · rw [processBatch_dry cfg env msgs L ctr hled, runBatch_dry_eq cfg env hsink]
  · exact runBatch_create_recorded cfg env msgs ⟨L, ctr⟩

/-- C3 witness: dry-run equivalence instantiated at a one-message batch. -/
theorem c3_dry_run_equivalence_witness :
    ∃ ds LF cF rpt,
      processBatch ⟨"UTC".toList, 86400, none⟩
        ⟨fun _ => true, fun _ => true, fun _ => true, true⟩
        [⟨1, "hr@acme.com".toList, "phone screen".toList, "schedule a call".toList,
          100, [("tue".toList, 200)]⟩] true emptyLedger 0 = .ok (ds, emptyLedger, 0, rpt) ∧
      processBatch ⟨"UTC".toList, 86400, none⟩
        ⟨fun _ => true, fun _ => true, fun _ => true, true⟩
        [⟨1, "hr@acme.com".toList, "phone screen".toList, "schedule a call".toList,
          100, [("tue".toList, 200)]⟩] false emptyLedger 0 = .ok (ds, LF, cF, rpt) ∧
      ∀ d ∈ ds, d.decision = Decision.CreateEvent →
        ∃ k, d.key = some k ∧ (LF k).isSome :=
  c3_dry_run_equivalence ⟨"UTC".toList, 86400, none⟩
    ⟨fun _ => true, fun _ => true, fun _ => true, true⟩
    [⟨1, "hr@acme.com".toList, "phone screen".toList, "schedule a call".toList,
      100, [("tue".toList, 200)]⟩] emptyLedger 0 rfl (fun _ => rfl)

/-- C4: a message classified NotInterview yields the decision Skip with the
not-interview reason, and the planner state — ledger and event counter —
after the message equals the state before it: no entry is created, read-
modified, or updated. -/
theorem c4_notInterview_frame (cfg : Config) (env : Env) (dry : Bool) (st : RunState)
    (m : RawMessage) (hdec : env.decodeOk m.msgId = true)
    (hcls : classify cfg (env.capOk m.msgId) m = Classification.NotInterview) :
    planMessage cfg env dry st m =
      (⟨m.msgId, some Classification.NotInterview, none, none,
        Decision.Skip notInterviewReason⟩, st) :=
  plan_notInterview cfg env dry st m hdec hcls

/-- C4 witness: a marketing message with no stage cue and a non-ATS sender
is Skipped as not interview-related with the state untouched. -/
theorem c4_notInterview_frame_witness :
    planMessage ⟨"UTC".toList, 86400, none⟩
      ⟨fun _ => true, fun _ => true, fun _ => true, true⟩ false ⟨emptyLedger, 0⟩
      ⟨2, "news@shop.com".toList, "big sale".toList, "discounts all week".toList, 50, []⟩ =
      (⟨2, some Classification.NotInterview, none, none,
        Decision.Skip notInterviewReason⟩, ⟨emptyLedger, 0⟩) :=
  c4_notInterview_frame ⟨"UTC".toList, 86400, none⟩
    ⟨fun _ => true, fun _ => true, fun _ => true, true⟩ false ⟨emptyLedger, 0⟩
    ⟨2, "news@shop.com".toList, "big sale".toList, "discounts all week".toList, 50, []⟩
    rfl (by decide)

/-- C5: the Time Extractor never returns a past instant — if every resolved
candidate is at or before the received timestamp it returns none, and when
it returns a time that time is strictly in the future and comes from the
first candidate phrase that resolves to a future instant. -/
theorem c5_extractor_future_only :
    (∀ (received : Nat) (cands : List (List Char × Nat)),
      (∀ c ∈ cands, c.2 ≤ received) → extractTime received cands = none) ∧
    (∀ (received : Nat) (cands : List (List Char × Nat)) (et : ExtractedTime),
      extractTime received cands = some et →
      received < et.instant ∧ ∃ pre c post, cands = pre ++ c :: post ∧
        (∀ c2 ∈ pre, ¬ received < c2.2) ∧ received < c.2 ∧ et = ⟨c.2, c.1⟩) :=
  ⟨extractTime_none_of_past, fun received cands et h => extractTime_some_elim received cands et h⟩

/-- C5 witness: all-past candidates yield none; a mixed list yields the
first future candidate. -/
theorem c5_extractor_future_only_witness :
    extractTime 10 [("a".toList, 5), ("b".toList, 3)] = none ∧
    (10 < (⟨15, "x".toList⟩ : ExtractedTime).instant ∧
      ∃ pre c post, [("a".toList, 5), ("x".toList, 15)] = pre ++ c :: post ∧
        (∀ c2 ∈ pre, ¬ 10 < c2.2) ∧ 10 < c.2 ∧
        (⟨15, "x".toList⟩ : ExtractedTime) = ⟨c.2, c.1⟩) :=
  ⟨c5_extractor_future_only.1 10 [("a".toList, 5), ("b".toList, 3)] (by decide),
   c5_extractor_future_only.2 10 [("a".toList, 5), ("x".toList, 15)] ⟨15, "x".toList⟩
     (by decide)⟩

/-- C6: when a gated message carries cues for several stages the assigned
stage is maximal in the precedence order OnsiteFinal > Technical >
PhoneScreen > Assessment > RecruiterScheduling; in particular a message
containing both "onsite" and "recruiter screening call" classifies as
OnsiteFinal. -/
theorem c6_stage_precedence :
    (∀ (m : RawMessage) (s₀ : Stage), hasStageCue (msgText m) s₀ = true →
      ∃ stg conf, classifyDet m = .Interview stg conf ∧
        hasStageCue (msgText m) stg = true ∧
        ∀ s, hasStageCue (msgText m) s = true → stageRank s ≤ stageRank stg) ∧
    (∀ m : RawMessage, UI.containsSub ("onsite".toList) (msgText m) = true →
      UI.containsSub ("recruiter screening call".toList) (msgText m) = true →
      ∃ conf, classifyDet m = .Interview .OnsiteFinal conf) := by
  constructor
  · exact fun m s₀ h => cue_classify m s₀ h
  · intro m h1 h2
    have hcue : hasStageCue (msgText m) Stage.OnsiteFinal = true := by
      simp only [hasStageCue, stagePhrases, List.any_cons, List.any_nil,
        Bool.or_eq_true, Bool.or_false]
      exact Or.inl h1
    obtain ⟨stg, conf, hcd, hstg, hmax⟩ := cue_classify m Stage.OnsiteFinal hcue
    have h4 := hmax Stage.OnsiteFinal hcue
    have hstg4 : stg = Stage.OnsiteFinal := by
      cases stg <;> simp_all [stageRank]
    subst hstg4
    exact ⟨conf, hcd⟩

/-- C6 witness: precedence and the onsite-plus-recruiter-screening-call
example instantiated at a concrete message carrying both phrases. -/
theorem c6_stage_precedence_witness :
    (∃ stg conf,
      classifyDet ⟨3, "r@c.io".toList, "next steps".toList,
        "we will schedule the onsite after your recruiter screening call".toList, 0, []⟩ =
        .Interview stg conf ∧
      hasStageCue (msgText ⟨3, "r@c.io".toList, "next steps".toList,
        "we will schedule the onsite after your recruiter screening call".toList, 0, []⟩)
        stg = true ∧
      ∀ s, hasStageCue (msgText ⟨3, "r@c.io".toList, "next steps".toList,
        "we will schedule the onsite after your recruiter screening call".toList, 0, []⟩)
        s = true → stageRank s ≤ stageRank stg) ∧
    (∃ conf, classifyDet ⟨3, "r@c.io".toList, "next steps".toList,
        "we will schedule the onsite after your recruiter screening call".toList, 0, []⟩ =
      .Interview .OnsiteFinal conf) :=
  ⟨c6_stage_precedence.1 ⟨3, "r@c.io".toList, "next steps".toList,
      "we will schedule the onsite after your recruiter screening call".toList, 0, []⟩
      Stage.OnsiteFinal (by decide),
   c6_stage_precedence.2 ⟨3, "r@c.io".toList, "next steps".toList,
      "we will schedule the onsite after your recruiter screening call".toList, 0, []⟩
      (by decide) (by decide)⟩

/-- C7: per-message errors never abort a run — for every batch and every
pattern of malformed messages, capability failures and sink failures, a run
with working ledger storage returns ok with exactly one SyncDecision per
message, in order; and a ledger storage failure is the one condition that
aborts the whole batch. -/
theorem c7_error_containment :
    (∀ (cfg : Config) (env : Env) (msgs : List RawMessage) (dry : Bool) (L : Ledger)
      (ctr : Nat), env.ledgerOk = true →
      ∃ ds rest, processBatch cfg env msgs dry L ctr = .ok (ds, rest) ∧
        ds.map SyncDecision.msgId = msgs.map RawMessage.msgId) ∧
    (∀ (cfg : Config) (env : Env) (msgs : List RawMessage) (dry : Bool) (L : Ledger)
      (ctr : Nat), env.ledgerOk = false →
      processBatch cfg env msgs dry L ctr = .error BatchError.LedgerStorageFailure) := by
  constructor
  · intro cfg env msgs dry L ctr h
    exact ⟨(runBatch cfg env dry ⟨L, ctr⟩ msgs).1,
      ((if dry then L else (runBatch cfg env dry ⟨L, ctr⟩ msgs).2.ledger),
       (if dry then ctr else (runBatch cfg env dry ⟨L, ctr⟩ msgs).2.nextEventId),
       summarize (runBatch cfg env dry ⟨L, ctr⟩ msgs).1),
      processBatch_ok cfg env msgs dry L ctr h,
      runBatch_map_msgId cfg env dry msgs ⟨L, ctr⟩⟩
  · intro cfg env msgs dry L ctr h
    exact processBatch_err cfg env msgs dry L ctr h

/-- C7 witness: a batch with a malformed message, a failing capability and a
failing sink still yields one decision per message; flipping only the
ledger flag aborts the run. -/
theorem c7_error_containment_witness :
    (∃ ds rest, processBatch ⟨"UTC".toList, 86400, none⟩
        ⟨fun i => decide (i ≠ 1), fun _ => false, fun i => decide (i ≠ 2), true⟩
        [⟨1, "a@b.co".toList, "x".toList, "y".toList, 0, []⟩,
         ⟨2, "hr@acme.com".toList, "phone screen".toList, "schedule a call".toList,
          100, [("tue".toList, 200)]⟩,
         ⟨3, "news@shop.com".toList, "sale".toList, "discounts".toList, 50, []⟩]
        false emptyLedger 0 = .ok (ds, rest) ∧
      ds.map SyncDecision.msgId =
        [⟨1, "a@b.co".toList, "x".toList, "y".toList, 0, []⟩,
         ⟨2, "hr@acme.com".toList, "phone screen".toList, "schedule a call".toList,
          100, [("tue".toList, 200)]⟩,
         ⟨3, "news@shop.com".toList, "sale".toList, "discounts".toList, 50,
          []⟩].map RawMessage.msgId) ∧
    processBatch ⟨"UTC".toList, 86400, none⟩
      ⟨fun i => decide (i ≠ 1), fun _ => false, fun i => decide (i ≠ 2), false⟩
      [⟨1, "a@b.co".toList, "x".toList, "y".toList, 0, []⟩]
      false emptyLedger 0 = .error BatchError.LedgerStorageFailure :=
  ⟨c7_error_containment.1 ⟨"UTC".toList, 86400, none⟩
      ⟨fun i => decide (i ≠ 1), fun _ => false, fun i => decide (i ≠ 2), true⟩
      [⟨1, "a@b.co".toList, "x".toList, "y".toList, 0, []⟩,
       ⟨2, "hr@acme.com".toList, "phone screen".toList, "schedule a call".toList,
        100, [("tue".toList, 200)]⟩,
       ⟨3, "news@shop.com".toList, "sale".toList, "discounts".toList, 50, []⟩]
      false emptyLedger 0 rfl,
   c7_error_containment.2 ⟨"UTC".toList, 86400, none⟩
      ⟨fun i => decide (i ≠ 1), fun _ => false, fun i => decide (i ≠ 2), false⟩
      [⟨1, "a@b.co".toList, "x".toList, "y".toList, 0, []⟩]
      false emptyLedger 0 rfl⟩

end Pipeline
